import Mathlib

/-!
Verification of the retrieval/orchestration core of the open-persona
repository.  The reciprocal-rank fusion, the LLM reranker, the
structure-aware chunker, the context builder, the tool guardrails and the
orchestrator tool-call loop are embedded as executable Lean definitions
(JavaScript numbers become rationals, JS `Map` becomes an
insertion-ordered association list, the stable JS `sort` becomes
`mergeSort`, promises become explicit outcome values), and the claimed
properties are proved or refuted about those definitions.
-/

namespace OpenPersona

/-! ### JavaScript-model helpers -/

/-- Characters matched by the JavaScript regex class `\s` (ASCII whitespace
plus the Unicode whitespace code points, as used by `trim` as well). -/
def jsWsChars : List Char :=
  [' ', '\t', '\n', '\u000B', '\u000C', '\u000D',
   '\u00A0', '\u1680', '\u2000', '\u2001', '\u2002', '\u2003', '\u2004',
   '\u2005', '\u2006', '\u2007', '\u2008', '\u2009', '\u200A', '\u2028',
   '\u2029', '\u202F', '\u205F', '\u3000', '\uFEFF']

/-- Whether a character is JavaScript whitespace. -/
def isJsWs (c : Char) : Bool := jsWsChars.contains c

/-- JavaScript `Array.prototype.slice` with a single, possibly negative,
start argument.  Note that `slice(-0)` is `slice(0)` and returns the whole
array, which matters for `extractOverlap` with `overlapTokens = 0`. -/
def jsSlice {α : Type} (l : List α) (k : Int) : List α :=
  if k < 0 then l.drop (l.length - min l.length k.natAbs)
  else l.drop (min k.natAbs l.length)

/-- JavaScript `String.prototype.slice(0, n)` on a string (character
based, like the JS UTF-16 `length` this model uses). -/
def jsTake (s : String) (n : Nat) : String := String.mk (s.data.take n)

/-- JavaScript `String.prototype.toLowerCase` (ASCII-faithful). -/
def jsToLower (s : String) : String := String.mk (s.data.map Char.toLower)

/-! ### RAG data model (src/main/services/rag/types.ts) -/

/-- Chunk metadata (`ChunkMetadata`); the `sourceType` union
`'static' | 'user-upload' | 'learned'` is modelled as a string. -/
structure ChunkMetadata where
  sourceUri : String
  characterId : String
  category : String
  sourceType : String
  chunkIndex : Nat
  totalChunks : Nat
deriving DecidableEq, Repr, Inhabited

/-- One search result (`SearchResult`); the floating-point relevance score
is modelled as a rational. -/
structure SearchResult where
  id : String
  content : String
  score : Rat
  metadata : ChunkMetadata
deriving DecidableEq, Repr, Inhabited

/-! ### Reciprocal-rank fusion (`mergeWithRRF`, rag/types.ts) -/

/-- One reciprocal-rank contribution `1 / (k + rank + 1)`. -/
def rrfScoreAt (k rank : Nat) : Rat := 1 / (k + rank + 1)

/-- An entry of the insertion-ordered JS `Map` used by `mergeWithRRF`:
the key, the stored result and the accumulated RRF score. -/
abbrev ScoreEntry := String × SearchResult × Rat

/-- JS `scoreMap.set(r.id, { result: r, rrfScore })`: overwrite the value in
place when the key exists, append otherwise. -/
def mapSetSemantic (m : List ScoreEntry) (r : SearchResult) (s : Rat) : List ScoreEntry :=
  if m.any (fun e => e.1 == r.id) then
    m.map (fun e => if e.1 == r.id then (r.id, r, s) else e)
  else m ++ [(r.id, r, s)]

/-- The first loop of `mergeWithRRF` over the semantic results, carrying the
rank counter. -/
def insertSemanticFrom (k rank : Nat) (m : List ScoreEntry) :
    List SearchResult → List ScoreEntry
  | [] => m
  | r :: rs => insertSemanticFrom k (rank + 1) (mapSetSemantic m r (rrfScoreAt k rank)) rs

/-- The second loop of `mergeWithRRF` over the keyword results: an existing
entry gets its score incremented in place (keeping the stored result), a
new id is appended. -/
def addKeywordFrom (k rank : Nat) (m : List ScoreEntry) :
    List SearchResult → List ScoreEntry
  | [] => m
  | r :: rs =>
    let m' :=
      if m.any (fun e => e.1 == r.id) then
        m.map (fun e => if e.1 == r.id then (e.1, e.2.1, e.2.2 + rrfScoreAt k rank) else e)
      else m ++ [(r.id, r, rrfScoreAt k rank)]
    addKeywordFrom k (rank + 1) m' rs

/-- The fused score map of `mergeWithRRF` before sorting and truncation. -/
def rrfFuse (k : Nat) (semanticResults keywordResults : List SearchResult) :
    List ScoreEntry :=
  addKeywordFrom k 0 (insertSemanticFrom k 0 [] semanticResults) keywordResults

/-- rag/types.ts `mergeWithRRF`: fuse semantic and keyword result lists by
reciprocal rank, sort by descending fused score (JS `sort` is stable) and
truncate to `topK`.  The call sites pass the default `k = 60`. -/
def mergeWithRRF (semanticResults keywordResults : List SearchResult)
    (topK : Nat) (k : Nat) : List SearchResult :=
  let m := rrfFuse k semanticResults keywordResults
  let sorted := (m.map (fun e => e.2)).mergeSort (fun a b => decide (b.2 ≤ a.2))
  (sorted.take topK).map (fun p => { p.1 with score := p.2 })

/-- The ids of a result list, in order. -/
def idsOf (l : List SearchResult) : List String := l.map (fun r => r.id)

/-- The keys of the score map, in insertion order. -/
def entryIds (m : List ScoreEntry) : List String := m.map (fun e => e.1)

/-- Well-formedness of the score map: every entry stores a result whose id
is the entry's key (true by construction of both loops). -/
def EntriesWF (m : List ScoreEntry) : Prop := ∀ e ∈ m, e.2.1.id = e.1

/-- `scoreMap.get(id)` as an association-list lookup. -/
def lookupEntry (m : List ScoreEntry) (id : String) : Option (SearchResult × Rat) :=
  (m.find? (fun e => e.1 == id)).map (fun e => e.2)

/-- The first occurrence of an id in a result list, together with its rank. -/
def findWithRank (id : String) : List SearchResult → Option (Nat × SearchResult)
  | [] => none
  | r :: rs =>
    if r.id == id then some (0, r)
    else (findWithRank id rs).map (fun p => (p.1 + 1, p.2))

/-- The reciprocal-rank contribution of one input list to an id: `1/(k+rank+1)`
at the id's rank if the list contains it, `0` otherwise. -/
def rrfContrib (k : Nat) (l : List SearchResult) (id : String) : Rat :=
  match findWithRank id l with
  | some p => rrfScoreAt k p.1
  | none => 0

/-- The score-map entries produced by ranking a duplicate-free list starting
at a given rank. -/
def rankedEntries (k : Nat) : Nat → List SearchResult → List ScoreEntry
  | _, [] => []
  | rank, r :: rs => (r.id, r, rrfScoreAt k rank) :: rankedEntries k (rank + 1) rs

/-! ### LLM reranker (part_007) -/

/-- Outcome of the awaited quick LLM call: the promise either rejects
(`failure`, the `catch` branch) or resolves with a reply string. -/
inductive LLMOutcome where
  | failure
  | reply (response : String)
deriving DecidableEq, Repr

/-- Characters matched by the class `[\d\s,]` of the regex `\[[\d\s,]+\]`. -/
def isIdxClassChar (c : Char) : Bool := c.isDigit || isJsWs c || c == ','

/-- `response.match(/\[[\d\s,]+\]/)`: the first substring consisting of `[`,
a non-empty run of digits / whitespace / commas, and `]`; returns the run
between the brackets.  Since the class excludes `]`, the greedy run needs
no backtracking. -/
def regexIdxMatch : List Char → Option (List Char)
  | [] => none
  | '[' :: rest =>
    let run := rest.takeWhile isIdxClassChar
    let rest' := rest.dropWhile isIdxClassChar
    if run ≠ [] ∧ rest'.head? = some ']' then some run
    else regexIdxMatch rest
  | _ :: rest => regexIdxMatch rest

/-- Numeric value of a digit run. -/
def digitsToNat (ds : List Char) : Nat :=
  ds.foldl (fun n c => 10 * n + (c.toNat - '0'.toNat)) 0

/-- JSON whitespace: the only whitespace characters `JSON.parse` accepts
(every other `\s` character makes the parse throw). -/
def isJsonWs (c : Char) : Bool := c == ' ' || c == '\t' || c == '\n' || c == '\u000D'

/-- Tokens of the bracket content as seen by `JSON.parse`. -/
inductive JTok where
  | num (n : Nat)
  | comma
deriving DecidableEq, Repr

/-- Tokenizer for the bracket content: integers (no leading zero) and
commas, skipping JSON whitespace; any other character makes `JSON.parse`
throw.  `fuel` is an embedding artifact (always at least the length). -/
def jsonTokensGo : Nat → List Char → Option (List JTok)
  | 0, _ => none
  | _ + 1, [] => some []
  | fuel + 1, c :: cs =>
    if isJsonWs c then jsonTokensGo fuel cs
    else if c = ',' then (jsonTokensGo fuel cs).map (JTok.comma :: ·)
    else if c.isDigit then
      let ds := cs.takeWhile Char.isDigit
      let rest := cs.dropWhile Char.isDigit
      if c = '0' ∧ ds ≠ [] then none
      else (jsonTokensGo fuel rest).map (JTok.num (digitsToNat (c :: ds)) :: ·)
    else none

/-- Tokenize a whole bracket content. -/
def jsonTokens (cs : List Char) : Option (List JTok) := jsonTokensGo (cs.length + 1) cs

/-- After the first array element: `(, number)*`. -/
def jsonToksTail : List JTok → Option (List Nat)
  | [] => some []
  | JTok.comma :: JTok.num n :: rest => (jsonToksTail rest).map (n :: ·)
  | _ => none

/-- A JSON array body: empty, or `number (, number)*`. -/
def jsonArrayFromToks : List JTok → Option (List Nat)
  | [] => some []
  | JTok.num n :: rest => (jsonToksTail rest).map (n :: ·)
  | _ => none

/-- part_007 `parseIndices`: extract the first JSON-like index array from
the reply and keep the integers in `[0, maxIndex)` (the parsed numbers are
non-negative integers by construction of the regex class). -/
def parseIndices (response : String) (maxIndex : Nat) : List Nat :=
  match regexIdxMatch response.data with
  | none => []
  | some run =>
    match (jsonTokens run).bind jsonArrayFromToks with
    | none => []
    | some ns => ns.filter (fun n => decide (n < maxIndex))

/-- part_007 `rerankWithLLM`: ask the quick LLM call for the most relevant
indices; on call failure or an unparseable reply fall back to the fused
order (the prompt construction only feeds the abstracted call). -/
def rerankWithLLM (query : String) (results : List SearchResult) (topK : Nat)
    (llmCall : LLMOutcome) : List SearchResult :=
  if results.length ≤ topK then results
  else
    match llmCall with
    | .failure => results.take topK
    | .reply response =>
      if parseIndices response results.length = [] then results.take topK
      else ((parseIndices response results.length).take topK).map
        (fun i => results.getD i default)

/-- The final stage of `RAGEngine.search` (part_006): after the RRF merge,
rerank when reranking is enabled and more than `topK` candidates were
fused, otherwise truncate the fused list to `topK`. -/
def searchRerankStage (query : String) (merged : List SearchResult) (topK : Nat)
    (useReranking : Bool) (llmCall : LLMOutcome) : List SearchResult :=
  if useReranking ∧ topK < merged.length then rerankWithLLM query merged topK llmCall
  else merged.take topK

/-! ### Chunker (src/main/services/rag/chunker.ts) -/

/-- Whether a character is a Hangul syllable (the JS regex `[가-힯]`). -/
def isHangulSyllable (c : Char) : Bool :=
  decide (0xAC00 ≤ c.toNat) && decide (c.toNat ≤ 0xD7AF)

/-- chunker.ts `estimateTokens`: heuristic token estimate with ~2 chars per
token when more than 30% of the characters are Hangul syllables and ~3
otherwise.  The JS float comparison `korean > length * 0.3` and
`Math.ceil(length / ratio)` agree with this exact integer arithmetic. -/
def estimateTokens (text : String) : Nat :=
  if text = "" then 0
  else
    let len := text.length
    let korean := text.data.countP isHangulSyllable
    let ratio := if 3 * len < 10 * korean then 2 else 3
    (len + ratio - 1) / ratio

/-- Splitting on runs of two or more newlines (JS `split(/\n\n+/)`); the
fuel argument is an embedding artifact and always suffices. -/
def paraSplitGo : Nat → List Char → List Char → List String
  | 0, _, acc => [String.mk acc.reverse]
  | _ + 1, [], acc => [String.mk acc.reverse]
  | fuel + 1, '\n' :: '\n' :: rest, acc =>
    String.mk acc.reverse :: paraSplitGo fuel (rest.dropWhile (fun c => c == '\n')) []
  | fuel + 1, c :: rest, acc => paraSplitGo fuel rest (c :: acc)

/-- JavaScript `String.prototype.trim`. -/
def jsTrim (s : String) : String :=
  String.mk (((s.data.dropWhile isJsWs).reverse.dropWhile isJsWs).reverse)

/-- chunker.ts: `text.split(/\n\n+/).filter((p) => p.trim().length > 0)`. -/
def paragraphsOf (text : String) : List String :=
  (paraSplitGo (text.data.length + 1) text.data []).filter
    (fun p => decide (0 < (jsTrim p).length))

/-- The sentence-ending punctuation class `[.!?。！？]`. -/
def isSentencePunct (c : Char) : Bool :=
  c == '.' || c == '!' || c == '?' || c == '。' || c == '！' || c == '？'

/-- chunker.ts: `text.split(/(?<=[.!?。！？])\s+/)`: split at each maximal
whitespace run immediately preceded by sentence punctuation. -/
def sentSplitGo : Nat → List Char → List Char → List String
  | 0, _, acc => [String.mk acc.reverse]
  | _ + 1, [], acc => [String.mk acc.reverse]
  | fuel + 1, c :: rest, acc =>
    if isSentencePunct c ∧ rest.takeWhile isJsWs ≠ [] then
      String.mk (c :: acc).reverse :: sentSplitGo fuel (rest.dropWhile isJsWs) []
    else sentSplitGo fuel rest (c :: acc)

/-- Sentence list of a paragraph. -/
def splitSentences (text : String) : List String :=
  sentSplitGo (text.data.length + 1) text.data []

/-- JS `split(/\s+/)`: split on maximal whitespace runs (a leading or
trailing run yields an empty first or last element, as in JS). -/
def wsSplitGo : Nat → List Char → List Char → List String
  | 0, _, acc => [String.mk acc.reverse]
  | _ + 1, [], acc => [String.mk acc.reverse]
  | fuel + 1, c :: rest, acc =>
    if isJsWs c then
      String.mk acc.reverse :: wsSplitGo fuel (rest.dropWhile isJsWs) []
    else wsSplitGo fuel rest (c :: acc)

/-- Word list of a combined text. -/
def jsSplitWs (s : String) : List String := wsSplitGo (s.data.length + 1) s.data []

/-- JS `Array.prototype.join(sep)`. -/
def joinSep (sep : String) : List String → String
  | [] => ""
  | [p] => p
  | p :: ps => p ++ sep ++ joinSep sep ps

/-- chunker.ts `extractOverlap`: the last `Math.ceil(overlapTokens * 0.75)`
whitespace-separated words of the previous chunk, rejoined with single
spaces; with `overlapTokens = 0` the JS `slice(-0)` returns all words. -/
def extractOverlap (paragraphs : List String) (overlapTokens : Nat) : String :=
  let combined := joinSep "\n\n" paragraphs
  let words := jsSplitWs combined
  let wordCount := (3 * overlapTokens + 3) / 4
  if words.length ≤ wordCount then combined
  else joinSep " " (jsSlice words (-(wordCount : Int)))

/-- chunker.ts `splitLongParagraph`: forced sentence-level split of an
oversized paragraph. -/
def splitLongParagraphGo (maxTokens : Nat) : List String → List String → Nat → List String
  | [], current, _ => if current.isEmpty then [] else [joinSep " " current]
  | s :: rest, current, tok =>
    let st := estimateTokens s
    if maxTokens < tok + st ∧ current ≠ [] then
      joinSep " " current :: splitLongParagraphGo maxTokens rest [s] st
    else splitLongParagraphGo maxTokens rest (current ++ [s]) (tok + st)

/-- Sentence-level split of one oversized paragraph. -/
def splitLongParagraph (text : String) (maxTokens : Nat) : List String :=
  splitLongParagraphGo maxTokens (splitSentences text) [] 0

/-- Ghost tag recording how a chunk was assembled. -/
inductive ChunkTag where
  | fresh
  | carry
  | sent
deriving DecidableEq, Repr

/-- A chunk with ghost data: the parts it was joined from, the separator,
the chunker's running token count at emission, and how it originated. -/
structure GChunk where
  parts : List String
  sep : String
  tokens : Nat
  tag : ChunkTag
deriving DecidableEq, Repr

/-- The emitted text of a ghost chunk. -/
def GChunk.render (g : GChunk) : String := joinSep g.sep g.parts

/-- The relation between an emitted chunk and the next one: whenever the
later chunk starts from a carried overlap, that overlap is computed from
the parts of the chunk just closed and is the literal head of the later
chunk. -/
def carryRel (ovT : Nat) (g₁ g₂ : GChunk) : Prop :=
  g₂.tag = ChunkTag.carry →
    extractOverlap g₁.parts ovT ≠ "" ∧
    ∃ rest, rest ≠ [] ∧ g₂.parts = extractOverlap g₁.parts ovT :: rest ∧
      g₂.render = extractOverlap g₁.parts ovT ++ "\n\n" ++ joinSep "\n\n" rest

/-- Ghost-instrumented `splitLongParagraph` (identical control flow, also
recording parts and the running token count). -/
def splitLongParagraphGhostGo (maxTokens : Nat) :
    List String → List String → Nat → List GChunk
  | [], current, tok => if current.isEmpty then [] else [⟨current, " ", tok, .sent⟩]
  | s :: rest, current, tok =>
    let st := estimateTokens s
    if maxTokens < tok + st ∧ current ≠ [] then
      ⟨current, " ", tok, .sent⟩ :: splitLongParagraphGhostGo maxTokens rest [s] st
    else splitLongParagraphGhostGo maxTokens rest (current ++ [s]) (tok + st)

/-- Ghost-instrumented sentence split of one oversized paragraph. -/
def splitLongParagraphGhost (text : String) (maxTokens : Nat) : List GChunk :=
  splitLongParagraphGhostGo maxTokens (splitSentences text) [] 0

/-- chunker.ts `splitWithOverlap`: paragraph-level split with overlap
carry-over (the running `currentTokens` bookkeeping follows the code:
per-paragraph estimates are summed, and after an overlap the joined text is
re-estimated). -/
def splitWithOverlapGo (maxTokens overlapTokens : Nat) :
    List String → List String → Nat → List String
  | [], current, _ => if current.isEmpty then [] else [joinSep "\n\n" current]
  | p :: rest, current, tok =>
    let pt := estimateTokens p
    if maxTokens < pt then
      (if current.isEmpty then [] else [joinSep "\n\n" current]) ++
        splitLongParagraph p maxTokens ++
        splitWithOverlapGo maxTokens overlapTokens rest [] 0
    else if maxTokens < tok + pt ∧ current ≠ [] then
      let ov := extractOverlap current overlapTokens
      let newCur := if ov = "" then [p] else [ov, p]
      joinSep "\n\n" current ::
        splitWithOverlapGo maxTokens overlapTokens rest newCur
          (estimateTokens (joinSep "\n\n" newCur))
    else splitWithOverlapGo maxTokens overlapTokens rest (current ++ [p]) (tok + pt)

/-- Paragraph-level split of one oversized section. -/
def splitWithOverlap (text : String) (maxTokens overlapTokens : Nat) : List String :=
  splitWithOverlapGo maxTokens overlapTokens (paragraphsOf text) [] 0

/-- Ghost-instrumented `splitWithOverlap`. -/
def splitWithOverlapGhostGo (maxTokens overlapTokens : Nat) :
    List String → List String → Nat → ChunkTag → List GChunk
  | [], current, tok, tag => if current.isEmpty then [] else [⟨current, "\n\n", tok, tag⟩]
  | p :: rest, current, tok, tag =>
    let pt := estimateTokens p
    if maxTokens < pt then
      (if current.isEmpty then [] else [⟨current, "\n\n", tok, tag⟩]) ++
        splitLongParagraphGhost p maxTokens ++
        splitWithOverlapGhostGo maxTokens overlapTokens rest [] 0 .fresh
    else if maxTokens < tok + pt ∧ current ≠ [] then
      let ov := extractOverlap current overlapTokens
      ⟨current, "\n\n", tok, tag⟩ ::
        (if ov = "" then
          splitWithOverlapGhostGo maxTokens overlapTokens rest [p]
            (estimateTokens (joinSep "\n\n" [p])) .fresh
        else
          splitWithOverlapGhostGo maxTokens overlapTokens rest [ov, p]
            (estimateTokens (joinSep "\n\n" [ov, p])) .carry)
    else
      splitWithOverlapGhostGo maxTokens overlapTokens rest (current ++ [p]) (tok + pt) tag

/-- Ghost-instrumented paragraph-level split. -/
def splitWithOverlapGhost (text : String) (maxTokens overlapTokens : Nat) : List GChunk :=
  splitWithOverlapGhostGo maxTokens overlapTokens (paragraphsOf text) [] 0 .fresh

/-- Chunker configuration (rag/types.ts `ChunkerConfig`). -/
structure ChunkerConfig where
  maxTokens : Nat
  overlapTokens : Nat
deriving DecidableEq, Repr

/-- The default chunker configuration. -/
def DEFAULT_CONFIG : ChunkerConfig := ⟨500, 50⟩

/-- Metadata of a raw chunk (`Omit<ChunkMetadata, 'chunkIndex' | 'totalChunks'>`). -/
structure RawChunkMeta where
  sourceUri : String
  characterId : String
  category : String
  sourceType : String
deriving DecidableEq, Repr, Inhabited

/-- A raw, pre-embedding chunk (rag/types.ts `RawChunk`). -/
structure RawChunk where
  content : String
  metadata : RawChunkMeta
deriving DecidableEq, Repr

/-- The optional per-section metadata record, modelled as a field-wise
override of the base metadata (the JS object spread). -/
structure MetaOverride where
  sourceUri : Option String
  characterId : Option String
  category : Option String
  sourceType : Option String
deriving DecidableEq, Repr

/-- Apply `{ ...baseMetadata, ...section.metadata }`. -/
def applyOverride (base : RawChunkMeta) (o : MetaOverride) : RawChunkMeta :=
  { sourceUri := o.sourceUri.getD base.sourceUri
    characterId := o.characterId.getD base.characterId
    category := o.category.getD base.category
    sourceType := o.sourceType.getD base.sourceType }

/-- A document section (rag/types.ts `DocumentSection`). -/
structure DocumentSection where
  title : String
  content : String
  metadata : Option MetaOverride
deriving DecidableEq, Repr

/-- The metadata of a section's chunks: `{ ...baseMetadata, ...section.metadata }`. -/
def sectionMeta (baseMetadata : RawChunkMeta) (sec : DocumentSection) : RawChunkMeta :=
  match sec.metadata with
  | some o => applyOverride baseMetadata o
  | none => baseMetadata

/-- chunker.ts `chunkSections`: sections within the token budget pass
through whole, oversized sections are split with overlap. -/
def chunkSections (sections : List DocumentSection) (baseMetadata : RawChunkMeta)
    (config : ChunkerConfig) : List RawChunk :=
  (sections.map (fun sec =>
    if estimateTokens sec.content ≤ config.maxTokens then
      [{ content := sec.content, metadata := sectionMeta baseMetadata sec }]
    else
      (splitWithOverlap sec.content config.maxTokens config.overlapTokens).map
        (fun sub => { content := sub, metadata := sectionMeta baseMetadata sec }))).flatten

/-! ### Tool guardrails and registry (src/main/services/tools) -/

/-- The argument map of a tool call, restricted to the fields the guardrails
inspect (`path`, `sourcePath`, `targetPath`, `dirPath`, `content`). -/
structure ToolArgs where
  path : Option String
  sourcePath : Option String
  targetPath : Option String
  dirPath : Option String
  content : Option String
deriving DecidableEq, Repr, Inhabited

/-- tool-guardrails.ts `extractPath`:
`args.path ?? args.sourcePath ?? args.targetPath ?? args.dirPath`. -/
def extractPath (args : ToolArgs) : Option String :=
  args.path.or (args.sourcePath.or (args.targetPath.or args.dirPath))

/-- tool-guardrails.ts `ToolGuardrailsConfig`. -/
structure ToolGuardrailsConfig where
  requireConfirmation : List String
  maxFileSizeBytes : Nat
  blockedPaths : List String
  maxToolCallsPerSession : Nat
deriving DecidableEq, Repr

/-- tool-guardrails.ts `DEFAULT_CONFIG`, parametrized by the home directory
used in `path.join(HOME, '.ssh')` etc. -/
def defaultGuardrailsConfig (home : String) : ToolGuardrailsConfig :=
  ⟨["deleteFile", "moveFile", "writeFile", "writeExcel"],
   10 * 1024 * 1024,
   ["/System", "/usr", "/bin", "/sbin", "/Library", "/private", "/var", "/etc",
    home ++ "/.ssh", home ++ "/.gnupg", home ++ "/.aws"],
   30⟩

/-- tool-guardrails.ts `ValidationResult`. -/
structure ValidationResult where
  allowed : Bool
  reason : Option String
  needsConfirmation : Option Bool
deriving DecidableEq, Repr

/-- Fixed-point formatting of `num / den` with one decimal digit
(`toFixed(1)`, rounded to nearest; exact for the default configuration). -/
def toFixed1 (num den : Nat) : String :=
  let tenths := (num * 10 + den / 2) / den
  toString (tenths / 10) ++ "." ++ toString (tenths % 10)

/-- tool-guardrails.ts `formatBytes`. -/
def formatBytes (bytes : Nat) : String :=
  if bytes < 1024 then toString bytes ++ "B"
  else if bytes < 1024 * 1024 then toFixed1 bytes 1024 ++ "KB"
  else toFixed1 bytes (1024 * 1024) ++ "MB"

/-- JavaScript `String.prototype.startsWith`: the first argument starts with
the second. -/
def jsStartsWith (s p : String) : Bool := List.isPrefixOf p.data s.data

/-- The first blocked path that the resolved target path starts with, if a
path-like argument is present (`path.resolve` is abstracted as a parameter
because it depends on the process working directory).  The source guards
the whole check with `if (targetPath)`, so an empty-string path argument —
falsy in JS — skips the blocklist entirely. -/
def blockedHit (config : ToolGuardrailsConfig) (resolve : String → String)
    (args : ToolArgs) : Option String :=
  match extractPath args with
  | none => none
  | some targetPath =>
    if targetPath = "" then none
    else
      config.blockedPaths.find? (fun blocked => jsStartsWith (resolve targetPath) blocked)

/-- tool-guardrails.ts: `content && Buffer.byteLength(content, 'utf-8') >
maxFileSizeBytes` (an empty string is falsy). -/
def oversizedContent (config : ToolGuardrailsConfig) (args : ToolArgs) : Bool :=
  match args.content with
  | some c => decide (c ≠ "") && decide (config.maxFileSizeBytes < c.utf8ByteSize)
  | none => false

/-- tool-guardrails.ts `ToolGuardrails.validate`: the checks run in order
(session ceiling, blocked path, write size), rejections return early, and
the session call counter is incremented only on an allowed call.  Returns
the result together with the updated counter. -/
def ToolGuardrails.validate (config : ToolGuardrailsConfig) (resolve : String → String)
    (callCount : Nat) (toolName : String) (args : ToolArgs) : ValidationResult × Nat :=
  if config.maxToolCallsPerSession ≤ callCount then
    (⟨false, some ("세션당 최대 도구 호출 횟수(" ++ toString config.maxToolCallsPerSession
      ++ ")를 초과했습니다."), none⟩, callCount)
  else
    match blockedHit config resolve args with
    | some blocked =>
      (⟨false, some ("보안 상 차단된 경로입니다: " ++ blocked), none⟩, callCount)
    | none =>
      if toolName = "writeFile" ∧ oversizedContent config args then
        (⟨false, some ("파일 크기가 제한(" ++ formatBytes config.maxFileSizeBytes
          ++ ")을 초과합니다."), none⟩, callCount)
      else
        (⟨true, none, some (config.requireConfirmation.contains toolName)⟩, callCount + 1)

/-- tools/types.ts `ToolCall`. -/
structure ToolCall where
  id : String
  name : String
  args : ToolArgs
deriving DecidableEq, Repr

/-- tools/types.ts `ToolResult`. -/
structure ToolResult where
  toolCallId : String
  success : Bool
  output : String
  error : Option String
deriving DecidableEq, Repr

/-- tool-registry.ts `ToolRegistry.execute`, with the per-tool timeout and
thrown executor errors absorbed into `Except` (a timeout rejects the
promise with the timeout message): look up the tool, validate, then run the
executor; an unknown tool or a guardrail rejection produces a structured
failure result without running the executor.  Returns the result and the
updated session call counter. -/
def ToolRegistry.execute (tools : List (String × (ToolArgs → Except String ToolResult)))
    (config : ToolGuardrailsConfig) (resolve : String → String) (callCount : Nat)
    (call : ToolCall) : ToolResult × Nat :=
  match tools.find? (fun t => t.1 == call.name) with
  | none => (⟨call.id, false, "", some ("알 수 없는 도구: " ++ call.name)⟩, callCount)
  | some t =>
    if (ToolGuardrails.validate config resolve callCount call.name call.args).1.allowed
        = false then
      (⟨call.id, false, "",
        (ToolGuardrails.validate config resolve callCount call.name call.args).1.reason⟩,
       (ToolGuardrails.validate config resolve callCount call.name call.args).2)
    else
      match t.2 call.args with
      | .ok r => (r, (ToolGuardrails.validate config resolve callCount call.name call.args).2)
      | .error msg => (⟨call.id, false, "", some msg⟩,
          (ToolGuardrails.validate config resolve callCount call.name call.args).2)

/-! ### Context builder (src/main/services/orchestrator/model-selector.ts) -/

/-- Message roles. -/
inductive Role where
  | system
  | user
  | assistant
  | tool
deriving DecidableEq, Repr

/-- History roles (the TS history type allows only user and assistant). -/
inductive HistRole where
  | user
  | assistant
deriving DecidableEq, Repr

/-- Widen a history role. -/
def HistRole.toRole : HistRole → Role
  | .user => Role.user
  | .assistant => Role.assistant

/-- One history turn. -/
structure HistoryMessage where
  role : HistRole
  content : String
deriving DecidableEq, Repr

/-- orchestrator/types.ts `Attachment` (`dataType` is `'base64'` or
`'filepath'`, modelled as a string). -/
structure Attachment where
  name : String
  mimeType : String
  data : String
  dataType : String
deriving DecidableEq, Repr

/-- A content part of a multimodal user message. -/
inductive ContentPart where
  | text (text : String)
  | image (mimeType : String) (data : String)
deriving DecidableEq, Repr

/-- Message content: plain text or multimodal parts. -/
inductive MessageContent where
  | text (s : String)
  | parts (ps : List ContentPart)
deriving DecidableEq, Repr

/-- llm/types.ts `MessageInput` (role, content, optional tool calls of an
assistant turn, optional tool-call id of a tool-result turn). -/
structure MessageInput where
  role : Role
  content : MessageContent
  toolCalls : List ToolCall
  toolCallId : Option String
deriving DecidableEq, Repr

/-- model-selector.ts `MAX_RAG_CONTEXT_CHARS`. -/
def MAX_RAG_CONTEXT_CHARS : Nat := 8000

/-- The truncation applied to the RAG context by `buildSystemPrompt`. -/
def trimmedRagContext (ragContext : String) : String :=
  if MAX_RAG_CONTEXT_CHARS < ragContext.length then
    jsTake ragContext MAX_RAG_CONTEXT_CHARS ++ "\n...(truncated)"
  else ragContext

/-- model-selector.ts `buildSystemPrompt`: append the (truncated) retrieved
context to the persona prompt under a delimited section; an empty context
leaves the prompt unchanged. -/
def buildSystemPrompt (basePrompt ragContext : String) : String :=
  if ragContext = "" then basePrompt
  else joinSep "\n"
    [basePrompt, "", "--- 참고 지식 (RAG) ---",
     "아래는 관련 전문 지식입니다. 답변 시 적극적으로 참고하되, 지식에 없는 내용은 솔직히 모른다고 하세요.",
     "", trimmedRagContext ragContext, "--- 참고 지식 끝 ---"]

/-- model-selector.ts `buildUserMessage`: plain text without attachments,
otherwise a text part followed by one image part per image attachment
(base64 data only; other attachments are skipped). -/
def buildUserMessage (text : String) (attachments : Option (List Attachment)) :
    MessageInput :=
  match attachments with
  | none => ⟨Role.user, MessageContent.text text, [], none⟩
  | some atts =>
    if atts.isEmpty then ⟨Role.user, MessageContent.text text, [], none⟩
    else
      ⟨Role.user,
       MessageContent.parts (ContentPart.text text ::
         (atts.filter (fun a => a.mimeType.startsWith "image/")).map
           (fun a => ContentPart.image a.mimeType
             (if a.dataType = "base64" then a.data else ""))),
       [], none⟩

/-- orchestrator/types.ts `ContextBuildInput`. -/
structure ContextBuildInput where
  systemPrompt : String
  history : List HistoryMessage
  ragContext : String
  userMessage : String
  attachments : Option (List Attachment)
  extractedText : Option String
deriving DecidableEq, Repr

/-- model-selector.ts `buildMessages`: one system message, the last 20
history turns, then the user message. -/
def buildMessages (input : ContextBuildInput) : List MessageInput :=
  ⟨Role.system,
    MessageContent.text (buildSystemPrompt input.systemPrompt input.ragContext),
    [], none⟩ ::
    ((jsSlice input.history (-20)).map
      (fun h => ⟨h.role.toRole, MessageContent.text h.content, [], none⟩) ++
      [buildUserMessage input.userMessage input.attachments])

/-! ### Orchestrator (src/renderer/App.tsx `Orchestrator`) -/

/-- A thrown JavaScript value: an `Error` instance with its message, or any
other thrown value (for which `isQuotaOrAuthError` returns false). -/
structure OrchError where
  isErrorInstance : Bool
  message : String
deriving DecidableEq, Repr

deriving instance DecidableEq for Except

/-- Whether `pat` occurs as a substring (JS `String.prototype.includes`). -/
def hasInfix : List Char → List Char → Bool
  | [], pat => pat.isEmpty
  | c :: rest, pat => pat.isPrefixOf (c :: rest) || hasInfix rest pat

/-- The message patterns tested by `isQuotaOrAuthError`, in source order. -/
def quotaAuthPatterns : List String :=
  ["quota", "rate_limit", "rate limit", "insufficient", "billing", "exceeded",
   "429", "401", "403", "api key", "authentication", "permission",
   "resource_exhausted", "resource has been exhausted"]

/-- App.tsx `isQuotaOrAuthError`: an `Error` whose lowercased message
contains one of the quota/auth patterns. -/
def isQuotaOrAuthError (e : OrchError) : Bool :=
  e.isErrorInstance &&
    quotaAuthPatterns.any (fun pat => hasInfix (jsToLower e.message).data pat.data)

/-- App.tsx `FALLBACK_MODELS`. -/
def FALLBACK_MODELS (provider : String) : Option (String × String) :=
  if provider = "openai" then some ("gemini", "gemini-2.0-flash")
  else if provider = "gemini" then some ("openai", "gpt-4o-mini")
  else none

/-- Step 6 of `Orchestrator.process`: run the tool loop against the selected
provider/model; if it throws a quota/auth-shaped error and the fallback
provider is defined and currently configured, retry the whole tool loop
once against the fallback and return its outcome; any other error (or a
missing/unconfigured fallback) propagates.  The tool-loop call is
abstracted as a function from provider and model to its outcome. -/
def processFallback {α : Type} (attempt : String → String → Except OrchError α)
    (provider model : String) (availableProviders : List String) : Except OrchError α :=
  match attempt provider model with
  | .ok out => .ok out
  | .error e =>
    if isQuotaOrAuthError e then
      match FALLBACK_MODELS provider with
      | some (fp, fm) =>
        if fp ∈ availableProviders then attempt fp fm
        else .error e
      | none => .error e
    else .error e

/-- App.tsx `MAX_TOOL_ROUNDS`. -/
def MAX_TOOL_ROUNDS : Nat := 5

/-- App.tsx `MAX_CONTEXT_MESSAGES`. -/
def MAX_CONTEXT_MESSAGES : Nat := 30

/-- One streamed chunk (shared/types `StreamChunk`; usage is abstracted to
its token total). -/
structure StreamChunk where
  text : String
  done : Bool
  toolCall : Option ToolCall
  usage : Option Nat
deriving DecidableEq, Repr

/-- The state of one round's chunk processing in `chatWithToolLoop`. -/
structure RoundState where
  emitted : List StreamChunk
  pending : List ToolCall
  fullText : String
  lastUsage : Option Nat
deriving DecidableEq, Repr

/-- Processing of one streamed chunk: a tool-call chunk is collected and
re-emitted as an empty-text tool-call chunk; a text chunk accumulates text
and usage and is forwarded only while no tool call is pending. -/
def processChunk (st : RoundState) (c : StreamChunk) : RoundState :=
  match c.toolCall with
  | some tc =>
    ⟨st.emitted ++ [⟨"", false, some tc, none⟩], st.pending ++ [tc],
     st.fullText, st.lastUsage⟩
  | none =>
    ⟨(if st.pending.isEmpty then st.emitted ++ [c] else st.emitted),
     st.pending, st.fullText ++ c.text,
     (match c.usage with | some u => some u | none => st.lastUsage)⟩

/-- The `for await` loop over one model call's chunks. -/
def runRound (chunks : List StreamChunk) : RoundState :=
  chunks.foldl processChunk ⟨[], [], "", none⟩

/-- The context compaction of `chatWithToolLoop`: above the ceiling, keep
all system messages plus the most recent messages up to the ceiling. -/
def compactMessages (msgs : List MessageInput) : List MessageInput :=
  if MAX_CONTEXT_MESSAGES < msgs.length then
    let system := msgs.filter (fun m => m.role == Role.system)
    system ++ jsSlice msgs (-((MAX_CONTEXT_MESSAGES : Int) - system.length))
  else msgs

/-- The tool-result turn appended for one executed tool call (`undefined`
error text renders as "undefined" in the JS template string). -/
def toolResultMessage (exec : ToolCall → ToolResult) (tc : ToolCall) : MessageInput :=
  ⟨Role.tool,
   MessageContent.text (if (exec tc).success then (exec tc).output
     else "Error: " ++ ((exec tc).error.getD "undefined")),
   [], some tc.id⟩

/-- The outcome of `chatWithToolLoop`: the emitted stream, the final round
counter, and the trace of model calls (the messages passed and whether tool
definitions were given). -/
structure LoopResult where
  emitted : List StreamChunk
  finalRound : Nat
  calls : List (List MessageInput × Bool)
deriving DecidableEq, Repr

/-- The message list entering the next round: the assistant turn carrying
the collected tool calls and full text, the tool-result turns, then
context compaction. -/
def nextMessages (exec : ToolCall → ToolResult) (msgs : List MessageInput)
    (st : RoundState) : List MessageInput :=
  compactMessages (msgs ++
    [⟨Role.assistant, MessageContent.text st.fullText, st.pending, none⟩] ++
    st.pending.map (toolResultMessage exec))

/-- App.tsx `chatWithToolLoop` body (`while (round < MAX_TOOL_ROUNDS)`),
with the provider's streaming call abstracted as `provider` (messages and
whether tools were passed ↦ chunks) and tool execution as `exec`.  The
fuel argument equals `MAX_TOOL_ROUNDS - round` and decreases exactly when
`round` increases, so the recursion mirrors the loop. -/
def toolLoopGo (provider : List MessageInput → Bool → List StreamChunk)
    (exec : ToolCall → ToolResult) (hasTools : Bool) :
    Nat → Nat → List MessageInput → LoopResult
  | 0, round, _ => ⟨[], round, []⟩
  | remaining + 1, round, msgs =>
    if (runRound (provider msgs hasTools)).pending.isEmpty then
      ⟨(runRound (provider msgs hasTools)).emitted ++
        (match (runRound (provider msgs hasTools)).lastUsage with
          | some u => [⟨"", true, none, some u⟩]
          | none => []), round, [(msgs, hasTools)]⟩
    else
      if round + 1 = MAX_TOOL_ROUNDS then
        ⟨(runRound (provider msgs hasTools)).emitted ++
          provider (nextMessages exec msgs (runRound (provider msgs hasTools))) false,
         round + 1,
         [(msgs, hasTools),
          (nextMessages exec msgs (runRound (provider msgs hasTools)), false)]⟩
      else
        ⟨(runRound (provider msgs hasTools)).emitted ++
          (toolLoopGo provider exec hasTools remaining (round + 1)
            (nextMessages exec msgs (runRound (provider msgs hasTools)))).emitted,
         (toolLoopGo provider exec hasTools remaining (round + 1)
           (nextMessages exec msgs (runRound (provider msgs hasTools)))).finalRound,
         (msgs, hasTools) ::
           (toolLoopGo provider exec hasTools remaining (round + 1)
             (nextMessages exec msgs (runRound (provider msgs hasTools)))).calls⟩

/-- The tool loop, entered with `round = 0`. -/
def chatWithToolLoop (provider : List MessageInput → Bool → List StreamChunk)
    (exec : ToolCall → ToolResult) (msgs : List MessageInput) (hasTools : Bool) :
    LoopResult :=
  toolLoopGo provider exec hasTools MAX_TOOL_ROUNDS 0 msgs

/-! ### Fixtures used by witnesses and counterexamples -/

/-- Concrete chunk metadata for witnesses. -/
def demoMeta : ChunkMetadata := ⟨"knowledge://fox/ts", "fox", "typescript", "static", 0, 3⟩

/-- Concrete search result. -/
def demoA : SearchResult := ⟨"a", "alpha", 3, demoMeta⟩

/-- Concrete search result. -/
def demoB : SearchResult := ⟨"b", "beta", 2, demoMeta⟩

/-- Concrete search result. -/
def demoC : SearchResult := ⟨"c", "gamma", 1, demoMeta⟩

/-- Concrete fused result list. -/
def demoResults : List SearchResult := [demoA, demoB, demoC]

/-- Concrete context-builder input for the witness. -/
def demoCtxInput : ContextBuildInput :=
  ⟨"You are a helpful fox.", [⟨HistRole.user, "hi"⟩, ⟨HistRole.assistant, "hello"⟩],
   "CTX", "what is RRF?", none, none⟩

/-- A sample executor for the witness. -/
def demoExecutor : ToolArgs → Except String ToolResult :=
  fun _ => Except.ok ⟨"c1", true, "done", none⟩

/-- A sample tool call whose path resolves under the blocked `/etc`. -/
def demoBlockedCall : ToolCall :=
  ⟨"c1", "writeFile", ⟨some "/etc/passwd", none, none, none, some "x"⟩⟩

/-- Attempt function whose selected-provider call throws an `Error` with
the bare message "exhausted" and whose fallback call would succeed. -/
def demoAttemptExhausted : String → String → Except OrchError String := fun p _ =>
  if p = "openai" then .error ⟨true, "exhausted"⟩ else .ok "ok-from-fallback"

/-- Attempt function whose selected-provider call fails with a 429 error. -/
def demoAttempt429 : String → String → Except OrchError String := fun p _ =>
  if p = "openai" then .error ⟨true, "HTTP 429 Too Many Requests"⟩
  else .ok "ok-from-fallback"

/-- A tool call requesting a read under the user's home directory. -/
def demoToolCall : ToolCall :=
  ⟨"t1", "readFile", ⟨some "/home/u/notes.txt", none, none, none, none⟩⟩

/-- A scripted provider that requests a tool call on every round in which
tool definitions are given, and answers with text otherwise. -/
def demoProvider : List MessageInput → Bool → List StreamChunk := fun _ tools =>
  if tools then [⟨"", false, some demoToolCall, none⟩]
  else [⟨"done", true, none, some 7⟩]

/-- A tool execution function that always succeeds. -/
def demoExec : ToolCall → ToolResult := fun tc => ⟨tc.id, true, "ok", none⟩

/-! ### Reranker theorems (C1, C9) -/

/-- Every index returned by `parseIndices` is below `maxIndex` (the final
filter of part_007). -/
theorem parseIndices_lt (response : String) (maxIndex : Nat) :
    ∀ n ∈ parseIndices response maxIndex, n < maxIndex := by
  intro n hn
  unfold parseIndices at hn
  split at hn
  · simp at hn
  · split at hn
    · simp at hn
    · simpa using (List.mem_filter.mp hn).2

/-- C1: for a search with reranking enabled and a fused candidate list
longer than `topK`, if the rerank LLM call fails or its reply contains no
parseable index array, the search returns exactly `topK` results and they
are the first `topK` fused results in fused order. -/
theorem rerank_graceful_degradation
    (query : String) (merged : List SearchResult) (topK : Nat) (llmCall : LLMOutcome)
    (hlen : topK < merged.length)
    (hfail : llmCall = .failure ∨
      ∃ s, llmCall = .reply s ∧ parseIndices s merged.length = []) :
    searchRerankStage query merged topK true llmCall = merged.take topK ∧
    (searchRerankStage query merged topK true llmCall).length = topK := by
  have hnotle : ¬ merged.length ≤ topK := Nat.not_le.mpr hlen
  have hmain : searchRerankStage query merged topK true llmCall = merged.take topK := by
    rcases hfail with h | ⟨s, hs, hp⟩
    · subst h
      simp [searchRerankStage, rerankWithLLM, hlen, hnotle]
    · subst hs
      simp [searchRerankStage, rerankWithLLM, hlen, hnotle, hp]
  refine ⟨hmain, ?_⟩
  rw [hmain, List.length_take]
  exact Nat.min_eq_left hlen.le

/-- Witness for C1: a concrete fused list of three results, `topK = 2`, and
a reply with no parseable index array. -/
theorem rerank_graceful_degradation_witness :
    searchRerankStage "q" demoResults 2 true (.reply "no indices here") = demoResults.take 2 ∧
    (searchRerankStage "q" demoResults 2 true (.reply "no indices here")).length = 2 :=
  rerank_graceful_degradation "q" demoResults 2 (.reply "no indices here")
    (by decide) (Or.inr ⟨"no indices here", rfl, by decide⟩)

/-- C9: for every reply string, every element of the reranker's output is
an element of its input list and the output length is at most `topK`;
moreover the output elements are not always pairwise distinct: the reply
`"[1, 1]"` selects the same input result twice. -/
theorem rerank_output_safety
    (query : String) (results : List SearchResult) (topK : Nat) (response : String) :
    (∀ r ∈ rerankWithLLM query results topK (.reply response), r ∈ results) ∧
    (rerankWithLLM query results topK (.reply response)).length ≤ topK ∧
    ¬ (rerankWithLLM "pick" demoResults 2 (.reply "[1, 1]")).Nodup := by
  refine ⟨?_, ?_, by decide⟩
  · intro r hr
    simp only [rerankWithLLM] at hr
    split at hr
    · exact hr
    · split at hr
      · exact List.mem_of_mem_take hr
      · rcases List.mem_map.mp hr with ⟨i, hi, hri⟩
        have hilt : i < results.length :=
          parseIndices_lt response results.length i (List.mem_of_mem_take hi)
        rw [← hri, List.getD_eq_getElem _ _ hilt]
        exact List.getElem_mem hilt
  · simp only [rerankWithLLM]
    split
    · next h => exact h
    · split
      · rw [List.length_take]
        exact Nat.min_le_left _ _
      · rw [List.length_map, List.length_take]
        exact Nat.min_le_left _ _

/-- Witness for C9 at a concrete input list and reply. -/
theorem rerank_output_safety_witness :
    demoB ∈ demoResults ∧
    (rerankWithLLM "pick" demoResults 2 (.reply "[1, 1]")).length ≤ 2 := by
  have h := rerank_output_safety "pick" demoResults 2 "[1, 1]"
  exact ⟨h.1 demoB (by decide), h.2.1⟩

/-! ### RRF fusion lemmas (C4, C10) -/

lemma mem_entryIds_iff_any (m : List ScoreEntry) (id : String) :
    (m.any (fun e => e.1 == id)) = true ↔ id ∈ entryIds m := by
  simp [List.any_eq_true, entryIds, List.mem_map]

lemma lookupEntry_eq_none_iff (m : List ScoreEntry) (id : String) :
    lookupEntry m id = none ↔ id ∉ entryIds m := by
  unfold lookupEntry entryIds
  rw [Option.map_eq_none', List.find?_eq_none]
  simp only [beq_iff_eq, List.mem_map, not_exists, Prod.forall, Prod.mk.injEq, not_and]

lemma lookupEntry_cons (e : ScoreEntry) (m : List ScoreEntry) (id : String) :
    lookupEntry (e :: m) id = if e.1 = id then some e.2 else lookupEntry m id := by
  by_cases h : e.1 = id <;> simp [lookupEntry, List.find?_cons, h]

lemma lookupEntry_append (m₁ m₂ : List ScoreEntry) (id : String) :
    lookupEntry (m₁ ++ m₂) id = (lookupEntry m₁ id).or (lookupEntry m₂ id) := by
  unfold lookupEntry
  rw [List.find?_append]
  cases List.find? (fun e => e.1 == id) m₁ <;> simp

lemma lookupEntry_singleton (key : String) (v : SearchResult × Rat) (id : String) :
    lookupEntry [(key, v)] id = if key = id then some v else none := by
  by_cases h : key = id <;> simp [lookupEntry, List.find?_cons, h]

lemma lookupEntry_update (m : List ScoreEntry) (key : String)
    (f : ScoreEntry → SearchResult × Rat) (id : String) :
    lookupEntry (m.map (fun e => if e.1 == key then (e.1, f e) else e)) id =
      if id = key then (m.find? (fun e => e.1 == id)).map (fun e => f e)
      else lookupEntry m id := by
  induction m with
  | nil => by_cases h : id = key <;> simp [lookupEntry, h]
  | cons e m ih =>
    simp only [List.map_cons]
    by_cases hek : e.1 = key <;> by_cases heid : e.1 = id
    · have hik : id = key := heid.symm.trans hek
      rw [if_pos (by simpa using hek), lookupEntry_cons, if_pos heid, if_pos hik,
        List.find?_cons_of_pos _ (by simpa using heid), Option.map_some']
    · have hik : ¬ id = key := fun h => heid (hek.trans h.symm)
      rw [if_pos (by simpa using hek), lookupEntry_cons, if_neg heid, if_neg hik,
        lookupEntry_cons, if_neg heid]
      have h := ih
      rwa [if_neg hik] at h
    · have hik : ¬ id = key := fun h => hek (heid.trans h)
      rw [if_neg (by simpa using hek), lookupEntry_cons, if_pos heid, if_neg hik,
        lookupEntry_cons, if_pos heid]
    · rw [if_neg (by simpa using hek), lookupEntry_cons, if_neg heid]
      by_cases hik : id = key
      · rw [if_pos hik, List.find?_cons_of_neg _ (by simpa using heid)]
        have h := ih
        rwa [if_pos hik] at h
      · rw [if_neg hik, lookupEntry_cons, if_neg heid]
        have h := ih
        rwa [if_neg hik] at h

lemma findWithRank_eq_none_iff (id : String) (l : List SearchResult) :
    findWithRank id l = none ↔ id ∉ idsOf l := by
  induction l with
  | nil => simp [findWithRank, idsOf]
  | cons r rs ih =>
    by_cases h : r.id = id
    · simp [findWithRank, h, idsOf]
    · have hb : (r.id == id) = false := by simpa using h
      simp only [findWithRank, hb, Bool.false_eq_true, if_false, idsOf, List.map_cons,
        List.mem_cons, Option.map_eq_none']
      rw [ih]
      unfold idsOf
      constructor
      · intro hn hmem
        rcases hmem with hmem | hmem
        · exact h hmem.symm
        · exact hn hmem
      · intro hn hmem
        exact hn (Or.inr hmem)

lemma findWithRank_eq_some_of_mem (id : String) (l : List SearchResult)
    (h : id ∈ idsOf l) : ∃ p, findWithRank id l = some p := by
  cases hf : findWithRank id l with
  | none => exact absurd h ((findWithRank_eq_none_iff id l).mp hf)
  | some p => exact ⟨p, rfl⟩

lemma insertSemanticFrom_eq_append (k : Nat) :
    ∀ (sem : List SearchResult) (rank : Nat) (m : List ScoreEntry),
      (idsOf sem).Nodup → (∀ r ∈ sem, r.id ∉ entryIds m) →
      insertSemanticFrom k rank m sem = m ++ rankedEntries k rank sem := by
  intro sem
  induction sem with
  | nil => intro rank m _ _; simp [insertSemanticFrom, rankedEntries]
  | cons r rs ih =>
    intro rank m hnd hdisj
    have hcons := List.nodup_cons.mp (show (r.id :: idsOf rs).Nodup from hnd)
    have hno : r.id ∉ entryIds m := hdisj r (List.mem_cons_self r rs)
    have hany : ¬ (m.any (fun e => e.1 == r.id)) = true := by
      rw [mem_entryIds_iff_any]; exact hno
    have hset : mapSetSemantic m r (rrfScoreAt k rank) = m ++ [(r.id, r, rrfScoreAt k rank)] := by
      unfold mapSetSemantic
      rw [if_neg hany]
    have hdisj' : ∀ r' ∈ rs, r'.id ∉ entryIds (m ++ [(r.id, r, rrfScoreAt k rank)]) := by
      intro r' hr'
      have h1 : r'.id ∉ entryIds m := hdisj r' (List.mem_cons_of_mem _ hr')
      have h2 : r'.id ≠ r.id := by
        intro he
        exact hcons.1 (he ▸ List.mem_map.mpr ⟨r', hr', rfl⟩)
      unfold entryIds at h1 ⊢
      rw [List.map_append, List.mem_append]
      rintro (h | h)
      · exact h1 h
      · simp at h
        exact h2 h
    rw [insertSemanticFrom, hset, ih (rank + 1) _ hcons.2 hdisj']
    simp [rankedEntries, List.append_assoc]

lemma lookupEntry_rankedEntries (k : Nat) (id : String) :
    ∀ (sem : List SearchResult) (rank : Nat),
      lookupEntry (rankedEntries k rank sem) id =
        (findWithRank id sem).map (fun p => (p.2, rrfScoreAt k (rank + p.1))) := by
  intro sem
  induction sem with
  | nil => intro rank; simp [rankedEntries, findWithRank, lookupEntry]
  | cons r rs ih =>
    intro rank
    by_cases h : r.id = id
    · simp [rankedEntries, findWithRank, lookupEntry_cons, h]
    · have hb : (r.id == id) = false := by simpa using h
      rw [rankedEntries, lookupEntry_cons, if_neg h, findWithRank, if_neg (by simp [hb]),
        ih (rank + 1)]
      cases hf : findWithRank id rs with
      | none => simp
      | some p =>
        simp only [Option.map_some']
        have : rank + 1 + p.1 = rank + (p.1 + 1) := by omega
        rw [this]

lemma lookupEntry_insertSemantic (k : Nat) (sem : List SearchResult) (id : String)
    (hnd : (idsOf sem).Nodup) :
    lookupEntry (insertSemanticFrom k 0 [] sem) id =
      (findWithRank id sem).map (fun p => (p.2, rrfScoreAt k p.1)) := by
  rw [insertSemanticFrom_eq_append k sem 0 [] hnd (by intro r _; simp [entryIds]),
    List.nil_append, lookupEntry_rankedEntries]
  cases hf : findWithRank id sem <;> simp

lemma lookupEntry_addKeywordFrom (k : Nat) :
    ∀ (kw : List SearchResult) (rank : Nat) (m : List ScoreEntry) (id : String),
      (idsOf kw).Nodup →
      lookupEntry (addKeywordFrom k rank m kw) id =
        match lookupEntry m id, findWithRank id kw with
        | some (r, s), some p => some (r, s + rrfScoreAt k (rank + p.1))
        | some (r, s), none => some (r, s)
        | none, some p => some (p.2, rrfScoreAt k (rank + p.1))
        | none, none => none := by
  intro kw
  induction kw with
  | nil =>
    intro rank m id _
    rw [addKeywordFrom, findWithRank]
    cases h : lookupEntry m id with
    | none => simp
    | some v => cases v; simp
  | cons r rs ih =>
    intro rank m id hnd
    have hcons := List.nodup_cons.mp (show (r.id :: idsOf rs).Nodup from hnd)
    rw [addKeywordFrom]
    by_cases hid : id = r.id
    · -- the looked-up id is the id of the currently processed keyword result
      subst hid
      have hrs : findWithRank r.id rs = none :=
        (findWithRank_eq_none_iff r.id rs).mpr hcons.1
      have hhead : findWithRank r.id (r :: rs) = some (0, r) := by
        rw [findWithRank, if_pos (by simp)]
      by_cases hmem : (m.any (fun e => e.1 == r.id)) = true
      · rw [if_pos hmem, ih (rank + 1) _ r.id hcons.2, hrs, hhead]
        rw [lookupEntry_update, if_pos rfl]
        have hsome : ∃ e, m.find? (fun e => e.1 == r.id) = some e := by
          rcases List.any_eq_true.mp hmem with ⟨e, he, hee⟩
          cases hf : m.find? (fun e => e.1 == r.id) with
          | none => exact absurd (List.find?_eq_none.mp hf e he) (by simp_all)
          | some e' => exact ⟨e', rfl⟩
        rcases hsome with ⟨e, he⟩
        have hlook : lookupEntry m r.id = some e.2 := by
          rw [lookupEntry, he, Option.map_some']
        rw [he, hlook, Option.map_some']
        cases hv : e.2 with
        | mk r' s' => simp
      · rw [if_neg hmem, ih (rank + 1) _ r.id hcons.2, hrs, hhead]
        have hnone : lookupEntry m r.id = none := by
          rw [lookupEntry_eq_none_iff]
          rw [mem_entryIds_iff_any] at hmem
          exact hmem
        rw [lookupEntry_append, hnone, Option.none_or, lookupEntry_singleton, if_pos rfl]
        simp
    · -- a different id: the head keyword result does not affect the lookup
      have hhead : findWithRank id (r :: rs) =
          (findWithRank id rs).map (fun p => (p.1 + 1, p.2)) := by
        rw [findWithRank, if_neg (by simpa using fun h => hid h.symm)]
      have hfinish : ∀ m₀ : List ScoreEntry, lookupEntry m₀ id = lookupEntry m id →
          (match lookupEntry m₀ id, findWithRank id rs with
            | some (r, s), some p => some (r, s + rrfScoreAt k (rank + 1 + p.1))
            | some (r, s), none => some (r, s)
            | none, some p => some (p.2, rrfScoreAt k (rank + 1 + p.1))
            | none, none => none) =
          (match lookupEntry m id, findWithRank id (r :: rs) with
            | some (r, s), some p => some (r, s + rrfScoreAt k (rank + p.1))
            | some (r, s), none => some (r, s)
            | none, some p => some (p.2, rrfScoreAt k (rank + p.1))
            | none, none => none) := by
        intro m₀ heq
        rw [heq, hhead]
        have harith : ∀ j : Nat, rank + 1 + j = rank + (j + 1) := by omega
        cases hl : lookupEntry m id with
        | none =>
          cases hf : findWithRank id rs with
          | none => simp
          | some p => simp [harith p.1]
        | some v =>
          cases v with
          | mk r' s' =>
            cases hf : findWithRank id rs with
            | none => simp
            | some p => simp [harith p.1]
      by_cases hmem : (m.any (fun e => e.1 == r.id)) = true
      · rw [if_pos hmem, ih (rank + 1) _ id hcons.2]
        apply hfinish
        rw [lookupEntry_update, if_neg hid]
      · rw [if_neg hmem, ih (rank + 1) _ id hcons.2]
        apply hfinish
        rw [lookupEntry_append, lookupEntry_singleton, if_neg (fun h => hid h.symm)]
        cases lookupEntry m id <;> simp

lemma lookupEntry_of_mem (m : List ScoreEntry) (e : ScoreEntry)
    (hm : e ∈ m) (hnd : (entryIds m).Nodup) : lookupEntry m e.1 = some e.2 := by
  induction m with
  | nil => cases hm
  | cons e' m ih =>
    have hcons := List.nodup_cons.mp (show (e'.1 :: entryIds m).Nodup from hnd)
    rcases List.mem_cons.mp hm with he | hm'
    · subst he
      rw [lookupEntry_cons, if_pos rfl]
    · have hne : e'.1 ≠ e.1 := by
        intro hh
        exact hcons.1 (hh ▸ List.mem_map.mpr ⟨e, hm', rfl⟩)
      rw [lookupEntry_cons, if_neg hne]
      exact ih hm' hcons.2

lemma entryIds_nodup_mapSetSemantic (m : List ScoreEntry) (r : SearchResult) (s : Rat)
    (h : (entryIds m).Nodup) : (entryIds (mapSetSemantic m r s)).Nodup := by
  unfold mapSetSemantic
  by_cases hmem : (m.any (fun e => e.1 == r.id)) = true
  · rw [if_pos hmem]
    have heq : entryIds (m.map (fun e => if e.1 == r.id then (r.id, r, s) else e))
        = entryIds m := by
      unfold entryIds
      rw [List.map_map]
      apply List.map_congr_left
      intro e _
      by_cases he : e.1 = r.id <;> simp [he]
    rwa [heq]
  · rw [if_neg hmem]
    have heq : entryIds (m ++ [(r.id, r, s)]) = entryIds m ++ [r.id] := by
      unfold entryIds
      rw [List.map_append]
      rfl
    rw [heq]
    refine List.Nodup.append h (List.nodup_singleton _) ?_
    intro x hx hx1
    simp only [List.mem_singleton] at hx1
    subst hx1
    rw [mem_entryIds_iff_any] at hmem
    exact hmem hx

lemma entryIds_nodup_insertSemanticFrom (k : Nat) :
    ∀ (sem : List SearchResult) (rank : Nat) (m : List ScoreEntry),
      (entryIds m).Nodup → (entryIds (insertSemanticFrom k rank m sem)).Nodup := by
  intro sem
  induction sem with
  | nil => intro rank m h; simpa [insertSemanticFrom] using h
  | cons r rs ih =>
    intro rank m h
    exact ih _ _ (entryIds_nodup_mapSetSemantic _ _ _ h)

lemma entryIds_nodup_addKeywordFrom (k : Nat) :
    ∀ (kw : List SearchResult) (rank : Nat) (m : List ScoreEntry),
      (entryIds m).Nodup → (entryIds (addKeywordFrom k rank m kw)).Nodup := by
  intro kw
  induction kw with
  | nil => intro rank m h; simpa [addKeywordFrom] using h
  | cons r rs ih =>
    intro rank m h
    rw [addKeywordFrom]
    by_cases hmem : (m.any (fun e => e.1 == r.id)) = true
    · rw [if_pos hmem]
      apply ih
      have heq : entryIds (m.map
          (fun e => if e.1 == r.id then (e.1, e.2.1, e.2.2 + rrfScoreAt k rank) else e))
          = entryIds m := by
        unfold entryIds
        rw [List.map_map]
        apply List.map_congr_left
        intro e _
        by_cases he : e.1 = r.id <;> simp [he]
      rwa [heq]
    · rw [if_neg hmem]
      apply ih
      have heq : entryIds (m ++ [(r.id, r, rrfScoreAt k rank)]) = entryIds m ++ [r.id] := by
        unfold entryIds
        rw [List.map_append]
        rfl
      rw [heq]
      refine List.Nodup.append h (List.nodup_singleton _) ?_
      intro x hx hx1
      simp only [List.mem_singleton] at hx1
      subst hx1
      rw [mem_entryIds_iff_any] at hmem
      exact hmem hx

lemma entriesWF_mapSetSemantic (m : List ScoreEntry) (r : SearchResult) (s : Rat)
    (h : EntriesWF m) : EntriesWF (mapSetSemantic m r s) := by
  unfold mapSetSemantic
  intro e he
  by_cases hmem : (m.any (fun e => e.1 == r.id)) = true
  · rw [if_pos hmem] at he
    rcases List.mem_map.mp he with ⟨e', he', heq⟩
    by_cases h1 : e'.1 = r.id
    · rw [if_pos (by simpa using h1)] at heq
      rw [← heq]
    · rw [if_neg (by simpa using h1)] at heq
      rw [← heq]
      exact h e' he'
  · rw [if_neg hmem] at he
    rcases List.mem_append.mp he with he' | he'
    · exact h e he'
    · simp only [List.mem_singleton] at he'
      rw [he']

lemma entriesWF_insertSemanticFrom (k : Nat) :
    ∀ (sem : List SearchResult) (rank : Nat) (m : List ScoreEntry),
      EntriesWF m → EntriesWF (insertSemanticFrom k rank m sem) := by
  intro sem
  induction sem with
  | nil => intro rank m h; simpa [insertSemanticFrom] using h
  | cons r rs ih =>
    intro rank m h
    exact ih _ _ (entriesWF_mapSetSemantic _ _ _ h)

lemma entriesWF_addKeywordFrom (k : Nat) :
    ∀ (kw : List SearchResult) (rank : Nat) (m : List ScoreEntry),
      EntriesWF m → EntriesWF (addKeywordFrom k rank m kw) := by
  intro kw
  induction kw with
  | nil => intro rank m h; simpa [addKeywordFrom] using h
  | cons r rs ih =>
    intro rank m h
    rw [addKeywordFrom]
    by_cases hmem : (m.any (fun e => e.1 == r.id)) = true
    · rw [if_pos hmem]
      apply ih
      intro e he
      rcases List.mem_map.mp he with ⟨e', he', heq⟩
      by_cases h1 : e'.1 = r.id
      · rw [if_pos (by simpa using h1)] at heq
        rw [← heq]
        exact h e' he'
      · rw [if_neg (by simpa using h1)] at heq
        rw [← heq]
        exact h e' he'
    · rw [if_neg hmem]
      apply ih
      intro e he
      rcases List.mem_append.mp he with he' | he'
      · exact h e he'
      · simp only [List.mem_singleton] at he'
        rw [he']

lemma rrfFuse_entryIds_nodup (k : Nat) (sem kw : List SearchResult) :
    (entryIds (rrfFuse k sem kw)).Nodup :=
  entryIds_nodup_addKeywordFrom k kw 0 _
    (entryIds_nodup_insertSemanticFrom k sem 0 [] (by simp [entryIds]))

lemma rrfFuse_wf (k : Nat) (sem kw : List SearchResult) : EntriesWF (rrfFuse k sem kw) :=
  entriesWF_addKeywordFrom k kw 0 _
    (entriesWF_insertSemanticFrom k sem 0 [] (by intro e he; cases he))

lemma rrfFuse_score (k : Nat) (sem kw : List SearchResult)
    (hsem : (idsOf sem).Nodup) (hkw : (idsOf kw).Nodup) (e : ScoreEntry)
    (he : e ∈ rrfFuse k sem kw) :
    e.2.2 = rrfContrib k sem e.1 + rrfContrib k kw e.1 := by
  obtain ⟨eid, er, es⟩ := e
  have hl := lookupEntry_of_mem _ _ he (rrfFuse_entryIds_nodup k sem kw)
  unfold rrfFuse at hl
  rw [lookupEntry_addKeywordFrom k kw 0 _ _ hkw,
    lookupEntry_insertSemantic k sem _ hsem] at hl
  unfold rrfContrib
  cases hfs : findWithRank (eid, er, es).1 sem with
  | none =>
    cases hfk : findWithRank (eid, er, es).1 kw with
    | none =>
      rw [hfs, hfk] at hl
      simp at hl
    | some p =>
      rw [hfs, hfk] at hl
      simp only [Option.map_none', Nat.zero_add, Option.some.injEq, Prod.mk.injEq] at hl
      rw [← hl.2]
      simp
  | some p₀ =>
    cases hfk : findWithRank (eid, er, es).1 kw with
    | none =>
      rw [hfs, hfk] at hl
      simp only [Option.map_some', Option.some.injEq, Prod.mk.injEq] at hl
      rw [← hl.2]
      simp
    | some p₁ =>
      rw [hfs, hfk] at hl
      simp only [Option.map_some', Nat.zero_add, Option.some.injEq, Prod.mk.injEq] at hl
      rw [← hl.2]

lemma mergeWithRRF_mem_entry (sem kw : List SearchResult) (topK k : Nat) (o : SearchResult)
    (ho : o ∈ mergeWithRRF sem kw topK k) :
    ∃ e ∈ rrfFuse k sem kw, o = { e.2.1 with score := e.2.2 } := by
  unfold mergeWithRRF at ho
  rcases List.mem_map.mp ho with ⟨p, hp, hop⟩
  have hp₂ : p ∈ (rrfFuse k sem kw).map (fun e => e.2) :=
    (List.mergeSort_perm _ _).mem_iff.mp (List.mem_of_mem_take hp)
  rcases List.mem_map.mp hp₂ with ⟨e, he, hep⟩
  refine ⟨e, he, ?_⟩
  rw [← hop, ← hep]

/-- C4: with duplicate-free semantic and keyword id lists, `mergeWithRRF`
with `k = 60` assigns every returned result a fused score equal to the sum
of `1/(60+rank+1)` over the input lists containing its id (rank counted
from 0), returns results in descending fused-score order, and truncates to
the requested length. -/
theorem mergeWithRRF_fused_ordering (sem kw : List SearchResult) (topK : Nat)
    (hsem : (idsOf sem).Nodup) (hkw : (idsOf kw).Nodup) :
    (∀ o ∈ mergeWithRRF sem kw topK 60,
        o.score = rrfContrib 60 sem o.id + rrfContrib 60 kw o.id) ∧
    (mergeWithRRF sem kw topK 60).Pairwise (fun a b => b.score ≤ a.score) ∧
    (mergeWithRRF sem kw topK 60).length = min topK (rrfFuse 60 sem kw).length := by
  refine ⟨?_, ?_, ?_⟩
  · intro o ho
    rcases mergeWithRRF_mem_entry sem kw topK 60 o ho with ⟨e, he, hoe⟩
    have hid : o.id = e.1 := by
      rw [hoe]
      exact rrfFuse_wf 60 sem kw e he
    have hscore : o.score = e.2.2 := by rw [hoe]
    rw [hscore, hid]
    exact rrfFuse_score 60 sem kw hsem hkw e he
  · unfold mergeWithRRF
    apply List.pairwise_map.mpr
    have htrans : ∀ (a b c : SearchResult × Rat), (decide (b.2 ≤ a.2)) = true →
        (decide (c.2 ≤ b.2)) = true → (decide (c.2 ≤ a.2)) = true := by
      intro a b c hab hbc
      simp only [decide_eq_true_eq] at *
      exact le_trans hbc hab
    have htotal : ∀ (a b : SearchResult × Rat),
        ((decide (b.2 ≤ a.2)) || (decide (a.2 ≤ b.2))) = true := by
      intro a b
      simpa using le_total b.2 a.2
    have hsorted := List.sorted_mergeSort htrans htotal
      ((rrfFuse 60 sem kw).map (fun e => e.2))
    have hpair := List.Pairwise.sublist (List.take_sublist topK _)
      (hsorted.imp (by intro a b h; simpa using h))
    exact hpair.imp (by intro a b h; exact h)
  · unfold mergeWithRRF
    rw [List.length_map, List.length_take, (List.mergeSort_perm _ _).length_eq,
      List.length_map]

/-- Witness for C4 at concrete overlapping semantic and keyword lists. -/
theorem mergeWithRRF_fused_ordering_witness :
    (mergeWithRRF [demoA, demoB] [demoB, demoC] 4 60).Pairwise
      (fun a b => b.score ≤ a.score) ∧
    (mergeWithRRF [demoA, demoB] [demoB, demoC] 4 60).length =
      min 4 (rrfFuse 60 [demoA, demoB] [demoB, demoC]).length := by
  have h := mergeWithRRF_fused_ordering [demoA, demoB] [demoB, demoC] 4
    (by decide) (by decide)
  exact ⟨h.2.1, h.2.2⟩

/-- C10: the RRF merge returns pairwise-distinct result ids, and (for
duplicate-free inputs) an id occurring in both input lists occurs at most
once in the fused output, its two reciprocal-rank contributions summed into
the single fused-map score. -/
theorem mergeWithRRF_distinct_ids (sem kw : List SearchResult) (topK : Nat) :
    (idsOf (mergeWithRRF sem kw topK 60)).Nodup ∧
    ((idsOf sem).Nodup → (idsOf kw).Nodup → ∀ id ∈ idsOf sem, id ∈ idsOf kw →
      (mergeWithRRF sem kw topK 60).countP (fun o => o.id == id) ≤ 1 ∧
      ∃ p₀ p₁, findWithRank id sem = some p₀ ∧ findWithRank id kw = some p₁ ∧
        lookupEntry (rrfFuse 60 sem kw) id =
          some (p₀.2, rrfScoreAt 60 p₀.1 + rrfScoreAt 60 p₁.1)) := by
  have hnodup : (idsOf (mergeWithRRF sem kw topK 60)).Nodup := by
    unfold mergeWithRRF idsOf
    rw [List.map_map]
    have h1 : ((fun r : SearchResult => r.id) ∘
        (fun p : SearchResult × Rat => { p.1 with score := p.2 })) =
        fun p : SearchResult × Rat => p.1.id := rfl
    rw [h1]
    apply List.Nodup.sublist (List.Sublist.map _ (List.take_sublist _ _))
    have hperm := ((List.mergeSort_perm ((rrfFuse 60 sem kw).map (fun e => e.2))
      (fun a b => decide (b.2 ≤ a.2))).map (fun p : SearchResult × Rat => p.1.id))
    rw [hperm.nodup_iff, List.map_map]
    have h2 : (rrfFuse 60 sem kw).map ((fun p : SearchResult × Rat => p.1.id) ∘
        (fun e : ScoreEntry => e.2)) = entryIds (rrfFuse 60 sem kw) := by
      apply List.map_congr_left
      intro e he
      exact rrfFuse_wf 60 sem kw e he
    rw [h2]
    exact rrfFuse_entryIds_nodup 60 sem kw
  refine ⟨hnodup, ?_⟩
  intro hsem hkw id hid_sem hid_kw
  constructor
  · have hcount : (mergeWithRRF sem kw topK 60).countP (fun o => o.id == id) =
        (idsOf (mergeWithRRF sem kw topK 60)).countP (fun x => x == id) := by
      unfold idsOf
      rw [List.countP_map]
      rfl
    rw [hcount]
    exact List.nodup_iff_count_le_one.mp hnodup id
  · rcases findWithRank_eq_some_of_mem id sem hid_sem with ⟨p₀, hp₀⟩
    rcases findWithRank_eq_some_of_mem id kw hid_kw with ⟨p₁, hp₁⟩
    refine ⟨p₀, p₁, hp₀, hp₁, ?_⟩
    unfold rrfFuse
    rw [lookupEntry_addKeywordFrom 60 kw 0 _ id hkw,
      lookupEntry_insertSemantic 60 sem id hsem, hp₀, hp₁]
    simp

/-- Witness for C10 at concrete lists sharing the id "b". -/
theorem mergeWithRRF_distinct_ids_witness :
    (idsOf (mergeWithRRF [demoA, demoB] [demoB, demoC] 4 60)).Nodup ∧
    (mergeWithRRF [demoA, demoB] [demoB, demoC] 4 60).countP
      (fun o => o.id == "b") ≤ 1 ∧
    ∃ p₀ p₁, findWithRank "b" [demoA, demoB] = some p₀ ∧
      findWithRank "b" [demoB, demoC] = some p₁ ∧
      lookupEntry (rrfFuse 60 [demoA, demoB] [demoB, demoC]) "b" =
        some (p₀.2, rrfScoreAt 60 p₀.1 + rrfScoreAt 60 p₁.1) := by
  have h := mergeWithRRF_distinct_ids [demoA, demoB] [demoB, demoC] 4
  have h2 := h.2 (by decide) (by decide) "b" (by decide) (by decide)
  exact ⟨h.1, h2.1, h2.2⟩

/-! ### Chunker lemmas (C6, C7) -/

lemma splitLongParagraphGo_eq_ghost (maxT : Nat) :
    ∀ (ss current : List String) (tok : Nat),
      splitLongParagraphGo maxT ss current tok =
        (splitLongParagraphGhostGo maxT ss current tok).map GChunk.render := by
  intro ss
  induction ss with
  | nil =>
    intro current tok
    by_cases h : current.isEmpty <;>
      simp [splitLongParagraphGo, splitLongParagraphGhostGo, h, GChunk.render]
  | cons s rest ih =>
    intro current tok
    simp only [splitLongParagraphGo, splitLongParagraphGhostGo]
    by_cases h : maxT < tok + estimateTokens s ∧ current ≠ []
    · rw [if_pos h, if_pos h, List.map_cons, ih]
      rfl
    · rw [if_neg h, if_neg h, ih]

lemma splitLongParagraph_eq_ghost (text : String) (maxT : Nat) :
    splitLongParagraph text maxT = (splitLongParagraphGhost text maxT).map GChunk.render :=
  splitLongParagraphGo_eq_ghost maxT _ [] 0

lemma splitWithOverlapGo_eq_ghost (maxT ovT : Nat) :
    ∀ (ps current : List String) (tok : Nat) (tag : ChunkTag),
      splitWithOverlapGo maxT ovT ps current tok =
        (splitWithOverlapGhostGo maxT ovT ps current tok tag).map GChunk.render := by
  intro ps
  induction ps with
  | nil =>
    intro current tok tag
    by_cases h : current.isEmpty <;>
      simp [splitWithOverlapGo, splitWithOverlapGhostGo, h, GChunk.render]
  | cons p rest ih =>
    intro current tok tag
    simp only [splitWithOverlapGo, splitWithOverlapGhostGo]
    by_cases h1 : maxT < estimateTokens p
    · rw [if_pos h1, if_pos h1, List.map_append, List.map_append,
        splitLongParagraph_eq_ghost, ih [] 0 ChunkTag.fresh]
      by_cases h : current.isEmpty <;> simp [h, GChunk.render]
    · rw [if_neg h1, if_neg h1]
      by_cases h2 : maxT < tok + estimateTokens p ∧ current ≠ []
      · rw [if_pos h2, if_pos h2, List.map_cons]
        by_cases hov : extractOverlap current ovT = ""
        · rw [if_pos hov, if_pos hov, ih _ _ ChunkTag.fresh]
          rfl
        · rw [if_neg hov, if_neg hov, ih _ _ ChunkTag.carry]
          rfl
      · rw [if_neg h2, if_neg h2, ih _ _ tag]

lemma splitWithOverlap_eq_ghost (text : String) (maxT ovT : Nat) :
    splitWithOverlap text maxT ovT =
      (splitWithOverlapGhost text maxT ovT).map GChunk.render :=
  splitWithOverlapGo_eq_ghost maxT ovT _ [] 0 ChunkTag.fresh

lemma splitLongParagraphGhostGo_all_sent (maxT : Nat) :
    ∀ (ss current : List String) (tok : Nat),
      ∀ g ∈ splitLongParagraphGhostGo maxT ss current tok, g.tag = ChunkTag.sent := by
  intro ss
  induction ss with
  | nil =>
    intro current tok g hg
    by_cases h : current.isEmpty
    · simp [splitLongParagraphGhostGo, h] at hg
    · simp only [splitLongParagraphGhostGo, h, Bool.false_eq_true, if_false,
        List.mem_singleton] at hg
      rw [hg]
  | cons s rest ih =>
    intro current tok g hg
    simp only [splitLongParagraphGhostGo] at hg
    by_cases h : maxT < tok + estimateTokens s ∧ current ≠ []
    · rw [if_pos h] at hg
      rcases List.mem_cons.mp hg with hg | hg
      · rw [hg]
      · exact ih _ _ g hg
    · rw [if_neg h] at hg
      exact ih _ _ g hg

lemma splitLongParagraphGhostGo_inv (maxT : Nat) :
    ∀ (ss current : List String) (tok : Nat),
      tok = (current.map estimateTokens).sum →
      (tok ≤ maxT ∨ ∃ s, current = [s] ∧ maxT < estimateTokens s) →
      ∀ g ∈ splitLongParagraphGhostGo maxT ss current tok,
        g.sep = " " ∧ g.tokens = (g.parts.map estimateTokens).sum ∧
        (g.tokens ≤ maxT ∨ ∃ s, g.parts = [s] ∧ maxT < estimateTokens s) := by
  intro ss
  induction ss with
  | nil =>
    intro current tok hsum hbound g hg
    by_cases h : current.isEmpty
    · simp [splitLongParagraphGhostGo, h] at hg
    · simp only [splitLongParagraphGhostGo, h, Bool.false_eq_true, if_false,
        List.mem_singleton] at hg
      rw [hg]
      exact ⟨rfl, hsum, hbound⟩
  | cons s rest ih =>
    intro current tok hsum hbound g hg
    simp only [splitLongParagraphGhostGo] at hg
    by_cases h : maxT < tok + estimateTokens s ∧ current ≠ []
    · rw [if_pos h] at hg
      rcases List.mem_cons.mp hg with hg | hg
      · rw [hg]
        exact ⟨rfl, hsum, hbound⟩
      · refine ih [s] (estimateTokens s) (by simp) ?_ g hg
        by_cases hst : estimateTokens s ≤ maxT
        · exact Or.inl hst
        · exact Or.inr ⟨s, rfl, Nat.lt_of_not_le hst⟩
    · rw [if_neg h] at hg
      refine ih (current ++ [s]) (tok + estimateTokens s) ?_ ?_ g hg
      · rw [List.map_append, List.sum_append, ← hsum]
        simp
      · rcases Decidable.not_and_iff_or_not.mp h with h' | h'
        · exact Or.inl (Nat.le_of_not_lt h')
        · have hc : current = [] := Decidable.not_not.mp h'
          subst hc
          simp only [List.nil_append]
          have htok : tok = 0 := by simpa using hsum
          subst htok
          by_cases hst : estimateTokens s ≤ maxT
          · exact Or.inl (by simpa using hst)
          · exact Or.inr ⟨s, rfl, by simpa using Nat.lt_of_not_le hst⟩

lemma joinSep_cons_of_ne (sep p : String) (ps : List String) (h : ps ≠ []) :
    joinSep sep (p :: ps) = p ++ sep ++ joinSep sep ps := by
  cases ps with
  | nil => exact absurd rfl h
  | cons q qs => rfl

lemma splitWithOverlapGhostGo_inv (maxT ovT : Nat) :
    ∀ (ps current : List String) (tok : Nat) (tag : ChunkTag),
      (tag = ChunkTag.fresh →
        tok = (current.map estimateTokens).sum ∧ (current = [] ∨ tok ≤ maxT)) →
      (tag = ChunkTag.carry → current ≠ [] ∧ (tok ≤ maxT ∨ current.length = 2)) →
      tag ≠ ChunkTag.sent →
      ∀ g ∈ splitWithOverlapGhostGo maxT ovT ps current tok tag,
        (g.tag = ChunkTag.fresh →
          g.tokens = (g.parts.map estimateTokens).sum ∧ g.tokens ≤ maxT) ∧
        (g.tag = ChunkTag.carry → g.tokens ≤ maxT ∨ g.parts.length = 2) ∧
        (g.tag = ChunkTag.sent → g.tokens = (g.parts.map estimateTokens).sum ∧
          (g.tokens ≤ maxT ∨ ∃ s, g.parts = [s] ∧ maxT < estimateTokens s)) := by
  intro ps
  induction ps with
  | nil =>
    intro current tok tag hfresh hcarry hsent g hg
    by_cases h : current.isEmpty
    · simp [splitWithOverlapGhostGo, h] at hg
    · simp only [splitWithOverlapGhostGo, h, Bool.false_eq_true, if_false,
        List.mem_singleton] at hg
      subst hg
      have hne : current ≠ [] := by simpa using h
      refine ⟨?_, ?_, ?_⟩
      · intro ht
        rcases hfresh ht with ⟨h1, h2⟩
        exact ⟨h1, h2.resolve_left hne⟩
      · intro ht
        exact (hcarry ht).2
      · intro ht
        exact absurd ht hsent
  | cons p rest ih =>
    intro current tok tag hfresh hcarry hsent g hg
    simp only [splitWithOverlapGhostGo] at hg
    by_cases h1 : maxT < estimateTokens p
    · rw [if_pos h1] at hg
      rcases List.mem_append.mp hg with hg' | hg'
      · rcases List.mem_append.mp hg' with hg2 | hg2
        · by_cases h : current.isEmpty
          · simp [h] at hg2
          · simp only [h, Bool.false_eq_true, if_false, List.mem_singleton] at hg2
            subst hg2
            have hne : current ≠ [] := by simpa using h
            refine ⟨?_, ?_, ?_⟩
            · intro ht
              rcases hfresh ht with ⟨ha, hb⟩
              exact ⟨ha, hb.resolve_left hne⟩
            · intro ht
              exact (hcarry ht).2
            · intro ht
              exact absurd ht hsent
        · have hsent' := splitLongParagraphGhostGo_inv maxT (splitSentences p) [] 0
            (by simp) (Or.inl (Nat.zero_le _)) g hg2
          have htag := splitLongParagraphGhostGo_all_sent maxT (splitSentences p) [] 0 g hg2
          refine ⟨?_, ?_, ?_⟩
          · intro ht
            rw [htag] at ht
            cases ht
          · intro ht
            rw [htag] at ht
            cases ht
          · intro _
            exact ⟨hsent'.2.1, hsent'.2.2⟩
      · exact ih [] 0 ChunkTag.fresh (by intro _; simp) (by intro ht; cases ht)
          (by intro ht; cases ht) g hg'
    · rw [if_neg h1] at hg
      by_cases h2 : maxT < tok + estimateTokens p ∧ current ≠ []
      · rw [if_pos h2] at hg
        rcases List.mem_cons.mp hg with hg' | hg'
        · subst hg'
          refine ⟨?_, ?_, ?_⟩
          · intro ht
            rcases hfresh ht with ⟨ha, hb⟩
            exact ⟨ha, hb.resolve_left h2.2⟩
          · intro ht
            exact (hcarry ht).2
          · intro ht
            exact absurd ht hsent
        · by_cases hov : extractOverlap current ovT = ""
          · rw [if_pos hov] at hg'
            refine ih [p] _ ChunkTag.fresh ?_ (by intro ht; cases ht)
              (by intro ht; cases ht) g hg'
            intro _
            constructor
            · simp [joinSep]
            · right
              have : joinSep "\n\n" [p] = p := rfl
              rw [this]
              exact Nat.le_of_not_lt h1
          · rw [if_neg hov] at hg'
            refine ih [extractOverlap current ovT, p] _ ChunkTag.carry
              (by intro ht; cases ht) ?_ (by intro ht; cases ht) g hg'
            intro _
            exact ⟨by simp, Or.inr rfl⟩
      · rw [if_neg h2] at hg
        refine ih (current ++ [p]) (tok + estimateTokens p) tag ?_ ?_ hsent g hg
        · intro ht
          rcases hfresh ht with ⟨ha, hb⟩
          constructor
          · rw [List.map_append, List.sum_append, ← ha]
            simp
          · right
            rcases Decidable.not_and_iff_or_not.mp h2 with h' | h'
            · exact Nat.le_of_not_lt h'
            · have hc : current = [] := Decidable.not_not.mp h'
              subst hc
              have htok : tok = 0 := by simpa using ha
              subst htok
              simpa using Nat.le_of_not_lt h1
        · intro ht
          rcases hcarry ht with ⟨ha, hb⟩
          refine ⟨by simp, Or.inl ?_⟩
          rcases Decidable.not_and_iff_or_not.mp h2 with h' | h'
          · exact Nat.le_of_not_lt h'
          · exact absurd (Decidable.not_not.mp h') ha

lemma splitWithOverlapGhostGo_head_of_ne (maxT ovT : Nat) :
    ∀ (ps current : List String) (tok : Nat) (tag : ChunkTag), current ≠ [] →
      ∃ ext tks rest, splitWithOverlapGhostGo maxT ovT ps current tok tag =
        ⟨current ++ ext, "\n\n", tks, tag⟩ :: rest := by
  intro ps
  induction ps with
  | nil =>
    intro current tok tag hne
    have hemp : current.isEmpty = false := by
      simpa [List.isEmpty_iff] using hne
    refine ⟨[], tok, [], ?_⟩
    simp [splitWithOverlapGhostGo, hemp]
  | cons p rest ih =>
    intro current tok tag hne
    simp only [splitWithOverlapGhostGo]
    have hemp : current.isEmpty = false := by
      simpa [List.isEmpty_iff] using hne
    by_cases h1 : maxT < estimateTokens p
    · rw [if_pos h1]
      refine ⟨[], tok, splitLongParagraphGhost p maxT ++
        splitWithOverlapGhostGo maxT ovT rest [] 0 ChunkTag.fresh, ?_⟩
      rw [if_neg (by simp [hemp])]
      simp
    · rw [if_neg h1]
      by_cases h2 : maxT < tok + estimateTokens p ∧ current ≠ []
      · rw [if_pos h2]
        by_cases hov : extractOverlap current ovT = ""
        · rw [if_pos hov]
          exact ⟨[], tok, splitWithOverlapGhostGo maxT ovT rest [p]
            (estimateTokens (joinSep "\n\n" [p])) ChunkTag.fresh, by simp⟩
        · rw [if_neg hov]
          exact ⟨[], tok, splitWithOverlapGhostGo maxT ovT rest
            [extractOverlap current ovT, p]
            (estimateTokens (joinSep "\n\n" [extractOverlap current ovT, p]))
            ChunkTag.carry, by simp⟩
      · rw [if_neg h2]
        rcases ih (current ++ [p]) (tok + estimateTokens p) tag (by simp) with
          ⟨ext, tks, rest', heq⟩
        refine ⟨[p] ++ ext, tks, rest', ?_⟩
        rw [heq]
        simp

lemma splitWithOverlapGhostGo_head_tag (maxT ovT : Nat) :
    ∀ (ps current : List String) (tok : Nat) (tag : ChunkTag) (g : GChunk),
      tag ≠ ChunkTag.carry →
      (splitWithOverlapGhostGo maxT ovT ps current tok tag).head? = some g →
      g.tag ≠ ChunkTag.carry := by
  intro ps
  induction ps with
  | nil =>
    intro current tok tag g htag hg
    by_cases h : current.isEmpty
    · simp [splitWithOverlapGhostGo, h] at hg
    · simp only [splitWithOverlapGhostGo, h, Bool.false_eq_true, if_false,
        List.head?_cons, Option.some.injEq] at hg
      rw [← hg]
      exact htag
  | cons p rest ih =>
    intro current tok tag g htag hg
    simp only [splitWithOverlapGhostGo] at hg
    by_cases h1 : maxT < estimateTokens p
    · rw [if_pos h1] at hg
      by_cases h : current.isEmpty
      · rw [if_pos h, List.nil_append, List.head?_append] at hg
        cases hsg : (splitLongParagraphGhost p maxT).head? with
        | some g₀ =>
          rw [hsg] at hg
          have hg2 : some g₀ = some g := hg
          injection hg2 with hg
          have hmem : g ∈ splitLongParagraphGhost p maxT :=
            List.mem_of_mem_head? (by rw [hsg, hg]; exact Option.mem_def.mpr rfl)
          have hs := splitLongParagraphGhostGo_all_sent maxT _ [] 0 g hmem
          rw [hs]
          intro ht
          cases ht
        | none =>
          rw [hsg, Option.none_or] at hg
          exact ih [] 0 ChunkTag.fresh g (by intro ht; cases ht) hg
      · rw [if_neg h, List.head?_append, List.head?_append, List.head?_cons] at hg
        have hg2 : some (⟨current, "\n\n", tok, tag⟩ : GChunk) = some g := hg
        injection hg2 with hg2
        rw [← hg2]
        exact htag
    · rw [if_neg h1] at hg
      by_cases h2 : maxT < tok + estimateTokens p ∧ current ≠ []
      · rw [if_pos h2, List.head?_cons] at hg
        injection hg with hg
        rw [← hg]
        exact htag
      · rw [if_neg h2] at hg
        exact ih _ _ tag g htag hg

lemma chain'_of_no_carry (ovT : Nat) (l : List GChunk)
    (h : ∀ g ∈ l, g.tag ≠ ChunkTag.carry) : List.Chain' (carryRel ovT) l := by
  induction l with
  | nil => exact List.chain'_nil
  | cons a l ih =>
    rw [List.chain'_cons']
    refine ⟨?_, ih (fun g hg => h g (List.mem_cons_of_mem _ hg))⟩
    intro b hb hcarry
    exact absurd hcarry (h b (List.mem_cons_of_mem _ (List.mem_of_mem_head? hb)))

lemma splitWithOverlapGhostGo_chain (maxT ovT : Nat) :
    ∀ (ps current : List String) (tok : Nat) (tag : ChunkTag),
      List.Chain' (carryRel ovT) (splitWithOverlapGhostGo maxT ovT ps current tok tag) := by
  intro ps
  induction ps with
  | nil =>
    intro current tok tag
    by_cases h : current.isEmpty <;>
      simp [splitWithOverlapGhostGo, h, List.chain'_singleton]
  | cons p rest ih =>
    intro current tok tag
    simp only [splitWithOverlapGhostGo]
    by_cases h1 : maxT < estimateTokens p
    · rw [if_pos h1]
      refine List.Chain'.append ?_ (ih [] 0 ChunkTag.fresh) ?_
      · refine List.Chain'.append ?_ ?_ ?_
        · by_cases h : current.isEmpty <;> simp [h, List.chain'_singleton]
        · exact chain'_of_no_carry ovT _ (fun g hg => by
            rw [splitLongParagraphGhostGo_all_sent maxT _ [] 0 g hg]
            intro ht
            cases ht)
        · intro x _ y hy hcarry
          have hmem : y ∈ splitLongParagraphGhost p maxT := List.mem_of_mem_head? hy
          rw [splitLongParagraphGhostGo_all_sent maxT _ [] 0 y hmem] at hcarry
          cases hcarry
      · intro x _ y hy hcarry
        have := splitWithOverlapGhostGo_head_tag maxT ovT rest [] 0 ChunkTag.fresh y
          (by intro ht; cases ht) hy
        exact absurd hcarry this
    · rw [if_neg h1]
      by_cases h2 : maxT < tok + estimateTokens p ∧ current ≠ []
      · rw [if_pos h2]
        by_cases hov : extractOverlap current ovT = ""
        · rw [if_pos hov]
          rw [List.chain'_cons']
          refine ⟨?_, ih _ _ ChunkTag.fresh⟩
          intro y hy hcarry
          have := splitWithOverlapGhostGo_head_tag maxT ovT rest [p] _ ChunkTag.fresh y
            (by intro ht; cases ht) hy
          exact absurd hcarry this
        · rw [if_neg hov]
          rw [List.chain'_cons']
          refine ⟨?_, ih _ _ ChunkTag.carry⟩
          intro y hy _
          rcases splitWithOverlapGhostGo_head_of_ne maxT ovT rest
            [extractOverlap current ovT, p] _ ChunkTag.carry (by simp) with
            ⟨ext, tks, rest', heq⟩
          rw [heq, List.head?_cons] at hy
          injection hy with hy
          refine ⟨hov, p :: ext, by simp, ?_, ?_⟩
          · rw [← hy]
            rfl
          · rw [← hy]
            unfold GChunk.render
            exact joinSep_cons_of_ne _ _ _ (by simp)

      · rw [if_neg h2]
        exact ih _ _ tag

/-- C6 (amended): the chunker enforces the token budget on its own running
token bookkeeping.  Every chunk assembled from whole paragraphs without a
carried overlap has its recorded token count — the sum of the constituent
paragraphs' individual estimates — within the budget; a chunk that starts
with a carried overlap is within budget unless it consists of exactly the
overlap and the single following paragraph; a sentence-split chunk is
within budget except when a single indivisible sentence alone exceeds it.
Small sections pass through whole, oversized sections go through
`splitWithOverlap`, whose output is exactly the rendering of the ghost
chunks.  (The re-estimated token count of the emitted joined text can
exceed the budget, because join separators and mixed-script ratio
switching are not reflected in the bookkeeping — see the counterexample.) -/
theorem chunker_token_budget_amended (text : String) (maxT ovT : Nat)
    (sections : List DocumentSection) (baseMeta : RawChunkMeta) (config : ChunkerConfig) :
    (∀ g ∈ splitWithOverlapGhost text maxT ovT,
      (g.tag = ChunkTag.fresh →
        g.tokens = (g.parts.map estimateTokens).sum ∧ g.tokens ≤ maxT) ∧
      (g.tag = ChunkTag.carry → g.tokens ≤ maxT ∨ g.parts.length = 2) ∧
      (g.tag = ChunkTag.sent → g.tokens = (g.parts.map estimateTokens).sum ∧
        (g.tokens ≤ maxT ∨ ∃ s, g.parts = [s] ∧ maxT < estimateTokens s))) ∧
    splitWithOverlap text maxT ovT =
      (splitWithOverlapGhost text maxT ovT).map GChunk.render ∧
    (∀ c ∈ chunkSections sections baseMeta config,
      (∃ sec ∈ sections, estimateTokens sec.content ≤ config.maxTokens ∧
        c.content = sec.content) ∨
      (∃ sec ∈ sections, config.maxTokens < estimateTokens sec.content ∧
        c.content ∈ splitWithOverlap sec.content config.maxTokens config.overlapTokens)) := by
  refine ⟨?_, splitWithOverlap_eq_ghost text maxT ovT, ?_⟩
  · intro g hg
    exact splitWithOverlapGhostGo_inv maxT ovT (paragraphsOf text) [] 0 ChunkTag.fresh
      (by intro _; simp) (by intro ht; cases ht) (by intro ht; cases ht) g hg
  · intro c hc
    unfold chunkSections at hc
    rw [List.mem_flatten] at hc
    rcases hc with ⟨l, hl, hcl⟩
    rcases List.mem_map.mp hl with ⟨sec, hsec, hlsec⟩
    subst hlsec
    split at hcl
    · next hle =>
      left
      refine ⟨sec, hsec, hle, ?_⟩
      simp only [List.mem_singleton] at hcl
      rw [hcl]
    · next hle =>
      right
      refine ⟨sec, hsec, Nat.lt_of_not_le hle, ?_⟩
      rcases List.mem_map.mp hcl with ⟨sub, hsub, hcsub⟩
      rw [← hcsub]
      exact hsub

/-- Witness for C6 (amended) at a concrete two-paragraph text with budget 3:
the first emitted chunk is fresh, its bookkeeping equals the paragraph
estimate sum and stays within the budget. -/
theorem chunker_token_budget_amended_witness :
    (⟨["aaaa"], "\n\n", 2, ChunkTag.fresh⟩ : GChunk).tokens =
      (((⟨["aaaa"], "\n\n", 2, ChunkTag.fresh⟩ : GChunk).parts.map estimateTokens).sum) ∧
    (⟨["aaaa"], "\n\n", 2, ChunkTag.fresh⟩ : GChunk).tokens ≤ 3 := by
  have h := (chunker_token_budget_amended "aaaa\n\nbbbb" 3 4 [] ⟨"u", "c", "k", "static"⟩
    ⟨3, 50⟩).1 ⟨["aaaa"], "\n\n", 2, ChunkTag.fresh⟩ (by decide)
  exact h.1 rfl

/-- Counterexample to C6 as stated: with a budget of 3 tokens, a section of
three one-sentence paragraphs is emitted as a single chunk whose estimated
token count is 5 > 3, while every paragraph and every sentence (under the
code's own sentence splitter) estimates within the budget — the chunker's
bookkeeping sums per-paragraph estimates and misses the join separators. -/
theorem chunker_token_budget_counterexample :
    (chunkSections [⟨"t", "Ab.\n\nAb.\n\nAb.", none⟩] ⟨"u", "c", "k", "static"⟩ ⟨3, 50⟩).map
      (fun c => c.content) = ["Ab.\n\nAb.\n\nAb."] ∧
    estimateTokens "Ab.\n\nAb.\n\nAb." = 5 ∧
    (∀ p ∈ paragraphsOf "Ab.\n\nAb.\n\nAb.", ∀ s ∈ splitSentences p,
      estimateTokens s ≤ 3) ∧
    (∀ s ∈ splitSentences "Ab.\n\nAb.\n\nAb.", estimateTokens s ≤ 3) := by
  decide

/-- C7 (amended): adjacent chunk pairs carry an overlap exactly when the
later chunk is an overlap-carrying accumulation chunk; in that case the
carried text is `extractOverlap` of the parts of the chunk just closed —
the last `⌈0.75·overlapTokens⌉` whitespace-separated words rejoined with
single spaces — it is non-empty, and it is the literal head of the later
chunk, followed by a paragraph separator.  Chunks produced by
sentence-splitting an oversized paragraph carry no overlap. -/
theorem chunker_overlap_carry_amended (text : String) (maxT ovT : Nat) :
    List.Chain' (carryRel ovT) (splitWithOverlapGhost text maxT ovT) ∧
    splitWithOverlap text maxT ovT =
      (splitWithOverlapGhost text maxT ovT).map GChunk.render :=
  ⟨splitWithOverlapGhostGo_chain maxT ovT (paragraphsOf text) [] 0 ChunkTag.fresh,
   splitWithOverlap_eq_ghost text maxT ovT⟩

/-- Witness for C7 (amended): on `"aaaa\n\nbbbb"` with budget 3 the second
chunk carries the overlap `"aaaa"` computed from the first chunk. -/
theorem chunker_overlap_carry_amended_witness :
    extractOverlap ["aaaa"] 4 ≠ "" ∧
    ∃ rest, rest ≠ [] ∧
      (⟨["aaaa", "bbbb"], "\n\n", 4, ChunkTag.carry⟩ : GChunk).parts =
        extractOverlap ["aaaa"] 4 :: rest ∧
      (⟨["aaaa", "bbbb"], "\n\n", 4, ChunkTag.carry⟩ : GChunk).render =
        extractOverlap ["aaaa"] 4 ++ "\n\n" ++ joinSep "\n\n" rest := by
  have h := (chunker_overlap_carry_amended "aaaa\n\nbbbb" 3 4).1
  have hlist : splitWithOverlapGhost "aaaa\n\nbbbb" 3 4 =
      [⟨["aaaa"], "\n\n", 2, ChunkTag.fresh⟩,
       ⟨["aaaa", "bbbb"], "\n\n", 4, ChunkTag.carry⟩] := by decide
  rw [hlist] at h
  have h2 := (List.chain'_cons'.mp h).1 ⟨["aaaa", "bbbb"], "\n\n", 4, ChunkTag.carry⟩
    (Option.mem_def.mpr rfl)
  exact h2 rfl

/-- Counterexample to C7 as stated: the section `"Abcdefgh. Ijklmnop."`
exceeds a budget of 3 tokens, yet the two chunks the chunker produces for
it (via sentence splitting) share no non-empty tail/head overlap at all. -/
theorem chunker_overlap_counterexample :
    (3 : Nat) < estimateTokens "Abcdefgh. Ijklmnop." ∧
    (chunkSections [⟨"t", "Abcdefgh. Ijklmnop.", none⟩] ⟨"u", "c", "k", "static"⟩
      ⟨3, 50⟩).map (fun c => c.content) = ["Abcdefgh.", "Ijklmnop."] ∧
    (∀ k : Nat, k ≤ 9 → 0 < k →
      ("Abcdefgh.".drop (9 - k) ≠ "Ijklmnop.".take k)) := by
  decide

/-! ### Context-builder theorems (C8) -/

lemma jsSlice_last20 {α : Type} (l : List α) :
    jsSlice l (-20) = l.drop (l.length - min l.length 20) ∧
    (jsSlice l (-20)).length = min 20 l.length := by
  have h0 : jsSlice l (-20) = l.drop (l.length - min l.length 20) := by
    unfold jsSlice
    rw [if_pos (by decide)]
    norm_num
  refine ⟨h0, ?_⟩
  rw [h0, List.length_drop]
  omega

lemma buildUserMessage_role (text : String) (atts : Option (List Attachment)) :
    (buildUserMessage text atts).role = Role.user := by
  unfold buildUserMessage
  cases atts with
  | none => rfl
  | some l => by_cases h : l.isEmpty <;> simp [h]

/-- C8: the context builder returns exactly one system message first (the
persona prompt with the retrieved context appended under a delimited
section, the context truncated to the 8000-character ceiling plus a fixed
15-character marker when non-empty), followed by the at most 20 most recent
history turns in order, followed by exactly one user message last. -/
theorem buildMessages_shape (input : ContextBuildInput) :
    (buildMessages input).length = 2 + min 20 input.history.length ∧
    (buildMessages input).head? = some ⟨Role.system,
      MessageContent.text (buildSystemPrompt input.systemPrompt input.ragContext),
      [], none⟩ ∧
    ((buildMessages input).filter (fun m => m.role == Role.system)).length = 1 ∧
    ((buildMessages input).drop 1).dropLast =
      (jsSlice input.history (-20)).map
        (fun h => ⟨h.role.toRole, MessageContent.text h.content, [], none⟩) ∧
    jsSlice input.history (-20) =
      input.history.drop (input.history.length - min input.history.length 20) ∧
    (buildMessages input).getLast? =
      some (buildUserMessage input.userMessage input.attachments) ∧
    (buildUserMessage input.userMessage input.attachments).role = Role.user ∧
    (input.ragContext ≠ "" →
      (trimmedRagContext input.ragContext).length ≤ MAX_RAG_CONTEXT_CHARS + 15) := by
  refine ⟨?_, rfl, ?_, ?_, (jsSlice_last20 input.history).1, ?_,
    buildUserMessage_role _ _, ?_⟩
  · unfold buildMessages
    rw [List.length_cons, List.length_append, List.length_map,
      (jsSlice_last20 input.history).2]
    simp
    omega
  · unfold buildMessages
    rw [List.filter_cons]
    have hsys : ((⟨Role.system,
        MessageContent.text (buildSystemPrompt input.systemPrompt input.ragContext),
        [], none⟩ : MessageInput).role == Role.system) = true := rfl
    rw [hsys]
    have hrest : ((jsSlice input.history (-20)).map
        (fun h => (⟨h.role.toRole, MessageContent.text h.content, [], none⟩ : MessageInput)) ++
        [buildUserMessage input.userMessage input.attachments]).filter
          (fun m => m.role == Role.system) = [] := by
      rw [List.filter_eq_nil_iff]
      intro m hm
      rcases List.mem_append.mp hm with hm | hm
      · rcases List.mem_map.mp hm with ⟨h, _, hhm⟩
        rw [← hhm]
        cases h.role <;> simp [HistRole.toRole]
      · simp only [List.mem_singleton] at hm
        subst hm
        rw [show (buildUserMessage input.userMessage input.attachments).role = Role.user from
          buildUserMessage_role _ _]
        simp
    rw [hrest]
    rfl
  · unfold buildMessages
    rw [List.drop_one, List.tail_cons, List.dropLast_concat]
  · unfold buildMessages
    rw [← List.cons_append, List.getLast?_concat]
  · intro hne
    unfold trimmedRagContext
    split
    · rw [String.length_append]
      have h1 : (jsTake input.ragContext MAX_RAG_CONTEXT_CHARS).length ≤
          MAX_RAG_CONTEXT_CHARS := by
        unfold jsTake
        rw [String.length_mk, List.length_take]
        exact Nat.min_le_left _ _
      have h2 : ("\n...(truncated)" : String).length = 15 := by decide
      omega
    · next hle =>
      have := Nat.le_of_not_lt hle
      omega

/-- Witness for C8 at a concrete input with a non-empty RAG context. -/
theorem buildMessages_shape_witness :
    (buildMessages demoCtxInput).length = 2 + min 20 demoCtxInput.history.length ∧
    (trimmedRagContext "CTX").length ≤ MAX_RAG_CONTEXT_CHARS + 15 := by
  have h := buildMessages_shape demoCtxInput
  exact ⟨h.1, h.2.2.2.2.2.2.2 (by decide)⟩

/-! ### Guardrail theorems (C5) -/

lemma validate_counter (config : ToolGuardrailsConfig) (resolve : String → String)
    (callCount : Nat) (toolName : String) (args : ToolArgs) :
    ((ToolGuardrails.validate config resolve callCount toolName args).1.allowed = false →
      (ToolGuardrails.validate config resolve callCount toolName args).2 = callCount) ∧
    ((ToolGuardrails.validate config resolve callCount toolName args).1.allowed = true →
      (ToolGuardrails.validate config resolve callCount toolName args).2 = callCount + 1) := by
  unfold ToolGuardrails.validate
  split
  · simp
  · split
    · simp
    · split
      · simp
      · simp

lemma blockedHit_isSome_iff (config : ToolGuardrailsConfig) (resolve : String → String)
    (args : ToolArgs) :
    (blockedHit config resolve args).isSome = true ↔
      ∃ p, extractPath args = some p ∧ p ≠ "" ∧
        ∃ b ∈ config.blockedPaths, jsStartsWith (resolve p) b := by
  unfold blockedHit
  split
  · next heq => simp [heq]
  · next p heq =>
    by_cases hempty : p = ""
    · subst hempty
      rw [if_pos rfl, heq]
      simp
    · rw [if_neg hempty, heq, List.find?_isSome]
      constructor
      · rintro ⟨b, hb, hsw⟩
        exact ⟨p, rfl, hempty, b, hb, hsw⟩
      · rintro ⟨p', hp', hne, b, hb, hsw⟩
        injection hp' with hp'
        subst hp'
        exact ⟨b, hb, hsw⟩

lemma oversizedContent_iff (config : ToolGuardrailsConfig) (args : ToolArgs) :
    oversizedContent config args = true ↔
      ∃ c, args.content = some c ∧ c ≠ "" ∧
        config.maxFileSizeBytes < c.utf8ByteSize := by
  unfold oversizedContent
  cases hc : args.content with
  | none => simp
  | some c =>
    simp only [Bool.and_eq_true, decide_eq_true_eq, Option.some.injEq]
    constructor
    · rintro ⟨h1, h2⟩
      exact ⟨c, rfl, h1, h2⟩
    · rintro ⟨c', hc', h1, h2⟩
      subst hc'
      exact ⟨h1, h2⟩

/-- C5: guardrail validation rejects exactly when the session call ceiling
is reached, a non-empty path-like argument resolves under a blocked
directory (the source's `if (targetPath)` guard skips the blocklist for a
falsy empty-string path), or an oversized `writeFile` content is given; a
rejected call produces a structured failure result carrying the validation
reason without running the (arbitrary) executor, and leaves the session
call counter unchanged, while an allowed call increments it. -/
theorem guardrail_rejection (config : ToolGuardrailsConfig) (resolve : String → String)
    (callCount : Nat) (call : ToolCall)
    (tools : List (String × (ToolArgs → Except String ToolResult)))
    (tl : String × (ToolArgs → Except String ToolResult))
    (hfound : tools.find? (fun t => t.1 == call.name) = some tl) :
    ((ToolGuardrails.validate config resolve callCount call.name call.args).1.allowed = false ↔
      (config.maxToolCallsPerSession ≤ callCount ∨
       (∃ p, extractPath call.args = some p ∧ p ≠ "" ∧
         ∃ b ∈ config.blockedPaths, jsStartsWith (resolve p) b) ∨
       (call.name = "writeFile" ∧ ∃ c, call.args.content = some c ∧ c ≠ "" ∧
         config.maxFileSizeBytes < c.utf8ByteSize))) ∧
    ((ToolGuardrails.validate config resolve callCount call.name call.args).1.allowed = false →
      ToolRegistry.execute tools config resolve callCount call =
        (⟨call.id, false, "",
          (ToolGuardrails.validate config resolve callCount call.name call.args).1.reason⟩,
         callCount)) ∧
    ((ToolGuardrails.validate config resolve callCount call.name call.args).1.allowed = true →
      (ToolRegistry.execute tools config resolve callCount call).2 = callCount + 1) := by
  refine ⟨?_, ?_, ?_⟩
  · rw [← blockedHit_isSome_iff config resolve call.args]
    unfold ToolGuardrails.validate
    split
    · next hceil =>
      constructor
      · intro _
        exact Or.inl hceil
      · intro _
        rfl
    · next hceil =>
      split
      · next b hb =>
        constructor
        · intro _
          refine Or.inr (Or.inl ?_)
          rw [hb]
          rfl
        · intro _
          rfl
      · next hb =>
        split
        · next hws =>
          constructor
          · intro _
            exact Or.inr (Or.inr ⟨hws.1, (oversizedContent_iff config call.args).mp hws.2⟩)
          · intro _
            rfl
        · next hws =>
          constructor
          · intro h
            simp at h
          · rintro (h | h | h)
            · exact absurd h hceil
            · rw [hb] at h
              simp at h
            · exact absurd ⟨h.1, (oversizedContent_iff config call.args).mpr h.2⟩ hws
  · intro hrej
    unfold ToolRegistry.execute
    split
    · next heq =>
      rw [heq] at hfound
      cases hfound
    · next t heq =>
      rw [heq] at hfound
      injection hfound with hfound
      rw [if_pos hrej,
        (validate_counter config resolve callCount call.name call.args).1 hrej]
  · intro hallow
    unfold ToolRegistry.execute
    split
    · next heq =>
      rw [heq] at hfound
      cases hfound
    · next t heq =>
      rw [if_neg (by rw [hallow]; simp)]
      split
      · exact (validate_counter config resolve callCount call.name call.args).2 hallow
      · exact (validate_counter config resolve callCount call.name call.args).2 hallow

/-- Witness for C5: a `writeFile` call with path `/etc/passwd` is rejected
(blocked directory), the executor never runs, the counter stays at 0. -/
theorem guardrail_rejection_witness :
    ToolRegistry.execute [("writeFile", demoExecutor)] (defaultGuardrailsConfig "/home/u")
      (fun s => s) 0 demoBlockedCall =
      (⟨"c1", false, "",
        (ToolGuardrails.validate (defaultGuardrailsConfig "/home/u") (fun s => s) 0
          "writeFile" demoBlockedCall.args).1.reason⟩, 0) := by
  have h := guardrail_rejection (defaultGuardrailsConfig "/home/u") (fun s => s) 0
    demoBlockedCall [("writeFile", demoExecutor)] ("writeFile", demoExecutor) rfl
  exact h.2.1 (by decide)

/-! ### Fallback theorems (C3) -/

/-- Counterexample to C3 as stated: an `Error` whose message is the bare
word "exhausted" — which the claim's listed shapes ("quota", "429", "401",
"403", "exhausted", …) cover — is not recognized by `isQuotaOrAuthError`
(the code checks `resource_exhausted` and `exceeded`, never the bare
word), so even with the fallback defined, configured and succeeding, no
retry happens and the error propagates. -/
theorem fallback_retry_counterexample :
    isQuotaOrAuthError ⟨true, "exhausted"⟩ = false ∧
    FALLBACK_MODELS "openai" = some ("gemini", "gemini-2.0-flash") ∧
    "gemini" ∈ ["openai", "gemini"] ∧
    demoAttemptExhausted "openai" "gpt-4o" = .error ⟨true, "exhausted"⟩ ∧
    demoAttemptExhausted "gemini" "gemini-2.0-flash" = .ok "ok-from-fallback" ∧
    processFallback demoAttemptExhausted "openai" "gpt-4o" ["openai", "gemini"] =
      .error ⟨true, "exhausted"⟩ := by
  decide

/-- C3 (amended): if the tool loop against the selected provider throws an
error recognized by `isQuotaOrAuthError` (an `Error` whose lowercased
message contains one of the code's patterns — "quota", "rate_limit",
"rate limit", "insufficient", "billing", "exceeded", "429", "401", "403",
"api key", "authentication", "permission", "resource_exhausted",
"resource has been exhausted" — but not a bare "exhausted"), and the
fallback provider is defined and currently configured, the whole tool loop
is retried exactly once against the fallback provider/model and its
outcome returned as is; every other error, a missing fallback, or an
unconfigured fallback propagates the original error. -/
theorem fallback_retry_amended {α : Type} (attempt : String → String → Except OrchError α)
    (provider model : String) (avail : List String) (e : OrchError)
    (herr : attempt provider model = .error e) :
    (∀ fp fm, isQuotaOrAuthError e = true → FALLBACK_MODELS provider = some (fp, fm) →
      fp ∈ avail → processFallback attempt provider model avail = attempt fp fm) ∧
    (isQuotaOrAuthError e = false →
      processFallback attempt provider model avail = .error e) ∧
    (FALLBACK_MODELS provider = none →
      processFallback attempt provider model avail = .error e) ∧
    (∀ fp fm, FALLBACK_MODELS provider = some (fp, fm) → fp ∉ avail →
      processFallback attempt provider model avail = .error e) := by
  have hred : processFallback attempt provider model avail =
      (if isQuotaOrAuthError e then
        match FALLBACK_MODELS provider with
        | some (fp, fm) =>
          if fp ∈ avail then attempt fp fm else .error e
        | none => .error e
      else .error e) := by
    unfold processFallback
    rw [herr]
  refine ⟨?_, ?_, ?_, ?_⟩
  · intro fp fm hq hf hmem
    rw [hred, if_pos hq, hf]
    exact if_pos hmem
  · intro hq
    rw [hred, if_neg (by simp [hq])]
  · intro hf
    rw [hred]
    by_cases hq : isQuotaOrAuthError e = true
    · rw [if_pos hq, hf]
    · rw [if_neg (by simpa using hq)]
  · intro fp fm hf hmem
    rw [hred]
    by_cases hq : isQuotaOrAuthError e = true
    · rw [if_pos hq, hf]
      exact if_neg hmem
    · rw [if_neg (by simpa using hq)]

/-- Witness for C3 (amended): a 429 error on the selected provider with a
configured fallback retries exactly once against the fallback and returns
its (successful) outcome. -/
theorem fallback_retry_amended_witness :
    processFallback demoAttempt429 "openai" "gpt-4o" ["openai", "gemini"] =
      demoAttempt429 "gemini" "gemini-2.0-flash" ∧
    demoAttempt429 "gemini" "gemini-2.0-flash" = .ok "ok-from-fallback" := by
  have h := fallback_retry_amended demoAttempt429 "openai" "gpt-4o" ["openai", "gemini"]
    ⟨true, "HTTP 429 Too Many Requests"⟩ rfl
  exact ⟨h.1 "gemini" "gemini-2.0-flash" (by decide) rfl (by decide), rfl⟩


/-! ### Tool-loop theorems (C2) -/

lemma foldl_processChunk_pending (chunks : List StreamChunk) (st : RoundState) :
    (chunks.foldl processChunk st).pending =
      st.pending ++ chunks.filterMap (fun c => c.toolCall) := by
  induction chunks generalizing st with
  | nil => simp
  | cons c rest ih =>
    rw [List.foldl_cons, ih]
    cases hc : c.toolCall with
    | some tc => simp [processChunk, hc]
    | none => simp [processChunk, hc]

lemma runRound_pending (chunks : List StreamChunk) :
    (runRound chunks).pending = chunks.filterMap (fun c => c.toolCall) := by
  unfold runRound
  rw [foldl_processChunk_pending]
  simp

lemma runRound_pending_not_empty (provider : List MessageInput → Bool → List StreamChunk)
    (msgs : List MessageInput)
    (hp : ∃ c ∈ provider msgs true, c.toolCall ≠ none) :
    (runRound (provider msgs true)).pending.isEmpty = false := by
  obtain ⟨c, hc, hne⟩ := hp
  cases hi : (runRound (provider msgs true)).pending.isEmpty
  · rfl
  · exfalso
    have hnil := List.isEmpty_iff.mp hi
    rw [runRound_pending, List.filterMap_eq_nil_iff] at hnil
    exact hne (hnil c hc)

lemma toolLoopGo_all_tools (provider : List MessageInput → Bool → List StreamChunk)
    (exec : ToolCall → ToolResult)
    (hp : ∀ ms, ∃ c ∈ provider ms true, c.toolCall ≠ none) :
    ∀ remaining round msgs, remaining + round = MAX_TOOL_ROUNDS → 0 < remaining →
      (toolLoopGo provider exec true remaining round msgs).finalRound = MAX_TOOL_ROUNDS ∧
      ∃ pre fm,
        (toolLoopGo provider exec true remaining round msgs).calls = pre ++ [(fm, false)] ∧
        pre.map Prod.snd = List.replicate remaining true ∧
        provider fm false <:+ (toolLoopGo provider exec true remaining round msgs).emitted := by
  intro remaining
  induction remaining with
  | zero =>
    intro round msgs _ h0
    exact absurd h0 (by simp)
  | succ n ih =>
    intro round msgs h _
    have hpend := runRound_pending_not_empty provider msgs (hp msgs)
    by_cases hmax : round + 1 = MAX_TOOL_ROUNDS
    · have hn : n = 0 := by
        rw [show MAX_TOOL_ROUNDS = 5 from rfl] at h hmax
        omega
      subst hn
      simp only [toolLoopGo]
      rw [if_neg (by simp [hpend]), if_pos hmax]
      exact ⟨hmax, [(msgs, true)],
        nextMessages exec msgs (runRound (provider msgs true)),
        rfl, rfl, List.suffix_append _ _⟩
    · have hn : 0 < n := by
        rw [show MAX_TOOL_ROUNDS = 5 from rfl] at h hmax
        omega
      obtain ⟨ih1, pre, fm, hc, hpre, hsuf⟩ :=
        ih (round + 1) (nextMessages exec msgs (runRound (provider msgs true)))
          (by rw [show MAX_TOOL_ROUNDS = 5 from rfl] at h ⊢; omega) hn
      simp only [toolLoopGo]
      rw [if_neg (by simp [hpend]), if_neg hmax]
      refine ⟨ih1, (msgs, true) :: pre, fm, ?_, ?_, ?_⟩
      · rw [hc]
        rfl
      · rw [List.map_cons, hpre]
        rfl
      · exact hsuf.trans (List.suffix_append _ _)

/-- C2: for a provider that emits at least one tool-call chunk on every
round in which tool definitions are passed, `chatWithToolLoop` terminates
with the round counter at `MAX_TOOL_ROUNDS` (5): it makes exactly five
tool-enabled model calls, then exactly one additional model call without
tool definitions, and the chunks streamed by that final call are forwarded
to the caller at the end of the emitted stream. -/
theorem tool_loop_bound (provider : List MessageInput → Bool → List StreamChunk)
    (exec : ToolCall → ToolResult) (msgs : List MessageInput)
    (hp : ∀ ms, ∃ c ∈ provider ms true, c.toolCall ≠ none) :
    (chatWithToolLoop provider exec msgs true).finalRound = MAX_TOOL_ROUNDS ∧
    ∃ pre finalMsgs,
      (chatWithToolLoop provider exec msgs true).calls = pre ++ [(finalMsgs, false)] ∧
      pre.map Prod.snd = List.replicate MAX_TOOL_ROUNDS true ∧
      provider finalMsgs false <:+ (chatWithToolLoop provider exec msgs true).emitted :=
  toolLoopGo_all_tools provider exec hp MAX_TOOL_ROUNDS 0 msgs rfl (by decide)

/-- Witness for C2: with the scripted always-tool-call provider, the loop
finishes at round 5 having made five tool-enabled model calls followed by
exactly one final model call without tools. -/
theorem tool_loop_bound_witness :
    (chatWithToolLoop demoProvider demoExec [] true).finalRound = MAX_TOOL_ROUNDS ∧
    (chatWithToolLoop demoProvider demoExec [] true).calls.map Prod.snd =
      List.replicate MAX_TOOL_ROUNDS true ++ [false] := by
  obtain ⟨h1, pre, fm, hc, hpre, _⟩ :=
    tool_loop_bound demoProvider demoExec []
      (fun ms => ⟨⟨"", false, some demoToolCall, none⟩, by simp [demoProvider], by decide⟩)
  refine ⟨h1, ?_⟩
  rw [hc, List.map_append, hpre]
  rfl

end OpenPersona
